import Mathlib

/-!
Verification of the rufflers execution engine against its specification.

Shallow embedding of the relevant parts of the repository:
* `src/core/src/avm2/events.rs` (event model, dispatch lists, dispatch state machine)
* `src/core/src/avm2/names.rs` (namespaces, QName, Multiname)
* `src/core/src/avm1/function.rs` (AVM1 call protocol: preload registers, SWF version)
* `src/core/src/avm1/globals/display_object.rs` (depth-gated removal)
* `src/core/src/avm2/globals/json.rs` (JSON serialization with cycle detection)

GC object references are modelled as `Nat` identities (the Rust code compares
handler objects by pointer identity, `Object::ptr_eq`). `AvmString` is
modelled as `String`.
-/

open List

namespace Rufflers

/-! ## Event model (src/core/src/avm2/events.rs) -/

/-- Which phase of event dispatch is currently occurring. -/
inductive EventPhase where
  | Capturing
  | AtTarget
  | Bubbling
deriving DecidableEq, Repr

/-- How this event is allowed to propagate. -/
inductive PropagationMode where
  | Allow
  | Stop
  | StopImmediate
deriving DecidableEq, Repr

/-- Data fields of an event fired on an `IEventDispatcher` implementor.
The `event_data` payload variants (`Empty`/`FullScreen`/`Mouse`) are not
modelled: they hold floating-point mouse coordinates and are never read by
the dispatch machinery. Targets are object identities (`Nat`). -/
structure Event where
  bubbles : Bool
  cancelable : Bool
  cancelled : Bool
  propagation : PropagationMode
  current_target : Option Nat
  event_phase : EventPhase
  target : Option Nat
  event_type : String
deriving DecidableEq, Repr

namespace Event

/-- `Event::new`: construct a new event of a given type. -/
def new (event_type : String) : Event :=
  { bubbles := false
    cancelable := false
    cancelled := false
    propagation := PropagationMode.Allow
    current_target := none
    event_phase := EventPhase.AtTarget
    target := none
    event_type := event_type }

/-- `Event::is_bubbling`. -/
def is_bubbling (e : Event) : Bool := e.bubbles

/-- `Event::is_cancelled`. -/
def is_cancelled (e : Event) : Bool := e.cancelled

/-- `Event::cancel`. -/
def cancel (e : Event) : Event :=
  if e.cancelable then { e with cancelled := true } else e

/-- `Event::is_propagation_stopped`. -/
def is_propagation_stopped (e : Event) : Bool :=
  e.propagation != PropagationMode.Allow

/-- `Event::stop_propagation`. -/
def stop_propagation (e : Event) : Event :=
  if e.propagation != PropagationMode.StopImmediate then
    { e with propagation := PropagationMode.Stop }
  else
    e

/-- `Event::is_propagation_stopped_immediately`. -/
def is_propagation_stopped_immediately (e : Event) : Bool :=
  e.propagation == PropagationMode.StopImmediate

/-- `Event::stop_immediate_propagation`. -/
def stop_immediate_propagation (e : Event) : Event :=
  { e with propagation := PropagationMode.StopImmediate }

/-- `Event::set_phase`. -/
def set_phase (e : Event) (phase : EventPhase) : Event :=
  { e with event_phase := phase }

/-- `Event::set_target`. -/
def set_target (e : Event) (target : Nat) : Event :=
  { e with target := some target }

/-- `Event::set_current_target`. -/
def set_current_target (e : Event) (current_target : Nat) : Event :=
  { e with current_target := some current_target }

end Event

/-! ## Dispatch lists (src/core/src/avm2/events.rs) -/

/-- A single instance of an event handler: the handler object (by identity)
together with its capture flag. -/
structure EventHandler where
  handler : Nat
  use_capture : Bool
deriving DecidableEq, Repr

/-- One event type's `BTreeMap<i32, Vec<EventHandler>>`, modelled as an
association list whose keys appear in strictly ascending order (the BTreeMap
iteration order). -/
abbrev PrioMap := List (Int × List EventHandler)

/-- `BTreeMap::entry(priority).or_insert_with(Vec::new).push(h)`:
insert `h` at the end of the vector stored at key `p`, creating the entry at
its sorted position if absent. -/
def btreeInsert (m : PrioMap) (p : Int) (h : EventHandler) : PrioMap :=
  match m with
  | [] => [(p, [h])]
  | (k, v) :: rest =>
    if p < k then (p, [h]) :: (k, v) :: rest
    else if p = k then (k, v ++ [h]) :: rest
    else (k, v) :: btreeInsert rest p h

/-- `DispatchList`: a set of handlers organized by event type, priority and
order added. The outer `FnvHashMap` is only ever used for keyed lookup
(never iterated), so it is modelled as a total function defaulting to the
empty priority map. -/
abbrev DispatchList := String → PrioMap

/-- `DispatchList::new`. -/
def DispatchList.new : DispatchList := fun _ => []

/-- `DispatchList::add_event_listener`. If the same (handler identity,
capture flag) pair already exists at any priority of this event type, the
call silently does nothing; otherwise the handler is pushed at the end of
its priority level. -/
def DispatchList.add_event_listener (d : DispatchList) (event : String)
    (priority : Int) (handler : Nat) (use_capture : Bool) : DispatchList :=
  let new_handler : EventHandler := ⟨handler, use_capture⟩
  if (d event).any (fun kv => kv.2.contains new_handler) then d
  else fun e => if e = event then btreeInsert (d event) priority new_handler else d e

/-- `DispatchList::remove_event_listener`: remove the first occurrence of
the (handler, capture flag) pair from every priority level of the event
type. -/
def DispatchList.remove_event_listener (d : DispatchList) (event : String)
    (handler : Nat) (use_capture : Bool) : DispatchList :=
  let old_handler : EventHandler := ⟨handler, use_capture⟩
  fun e =>
    if e = event then (d event).map (fun kv => (kv.1, kv.2.erase old_handler))
    else d e

/-- `DispatchList::has_event_listener`. -/
def DispatchList.has_event_listener (d : DispatchList) (event : String) : Bool :=
  (d event).any (fun kv => !kv.2.isEmpty)

/-- `DispatchList::iter_event_handlers`: yield the handlers for `event` in
intended execution order — priority levels in descending key order
(`BTreeMap::iter().rev()`), each level in insertion order, filtered by the
requested capture flag. -/
def DispatchList.iter_event_handlers (d : DispatchList) (event : String)
    (use_capture : Bool) : List Nat :=
  ((((d event).reverse.flatMap (fun kv => kv.2)).filter
      (fun eh => eh.use_capture == use_capture)).map EventHandler.handler)

/-! ## Event dispatch (src/core/src/avm2/events.rs, `dispatch_event_to_target`
and `dispatch_event`)

The dispatcher's mutable world is a `DispatcherState`: every object's
dispatch list plus the event being dispatched. A listener body is modelled
by the actions it performs through the public event/dispatcher API when
invoked (it may stop propagation, stop it immediately, cancel the event,
add or remove listeners anywhere, or raise an error); a behaviour assigns
each handler identity its actions as a function of the event it is passed.
-/

/-- The world state threaded through a dispatch: the per-object dispatch
lists and the event object (shared and mutated in place in the Rust code). -/
structure DispatcherState where
  lists : Nat → DispatchList
  event : Event

/-- One observable action a listener body can perform during its
invocation. -/
inductive ListenerAction where
  | stopProp
  | stopImmediate
  | cancel
  | addListener (obj : Nat) (etype : String) (priority : Int) (handler : Nat) (cap : Bool)
  | removeListener (obj : Nat) (etype : String) (handler : Nat) (cap : Bool)
  | fail
deriving DecidableEq, Repr

/-- A behaviour: what actions each handler (by identity) performs when
called with the given event. -/
abbrev Beh := Nat → Event → List ListenerAction

/-- Effect of a single (non-failing) listener action on the world. -/
def applyAction (a : ListenerAction) (s : DispatcherState) : DispatcherState :=
  match a with
  | ListenerAction.stopProp => { s with event := s.event.stop_propagation }
  | ListenerAction.stopImmediate => { s with event := s.event.stop_immediate_propagation }
  | ListenerAction.cancel => { s with event := s.event.cancel }
  | ListenerAction.addListener o e p h c =>
    { s with lists := fun q =>
        if q = o then (s.lists q).add_event_listener e p h c else s.lists q }
  | ListenerAction.removeListener o e h c =>
    { s with lists := fun q =>
        if q = o then (s.lists q).remove_event_listener e h c else s.lists q }
  | ListenerAction.fail => s

/-- Run a listener's actions in order. A `fail` raises an error: the actions
already performed persist (mutations in the Rust code happen in place) and
the remaining ones are skipped; the Bool is the error flag. -/
def applyActions : List ListenerAction → DispatcherState → DispatcherState × Bool
  | [], s => (s, false)
  | ListenerAction.fail :: _, s => (s, true)
  | a :: rest, s => applyActions rest (applyAction a s)

/-- Result of running the handlers collected at one target: the handlers
invoked in order, the final world, and whether a listener raised an error
(which the `?` in the Rust loop propagates to the caller). -/
structure TargetRunResult where
  log : List Nat
  state : DispatcherState
  errored : Bool

/-- The invocation loop of `dispatch_event_to_target`: walk the snapshotted
handler vector, checking `is_propagation_stopped_immediately` before each
call and propagating listener errors. -/
def runHandlers (beh : Beh) : List Nat → DispatcherState → TargetRunResult
  | [], s => ⟨[], s, false⟩
  | h :: rest, s =>
    if s.event.is_propagation_stopped_immediately then ⟨[], s, false⟩
    else
      let step := applyActions (beh h s.event) s
      if step.2 then ⟨[h], step.1, true⟩
      else
        let r := runHandlers beh rest step.1
        ⟨h :: r.log, r.state, r.errored⟩

/-- `dispatch_event_to_target`: read the event type and capture flag
(capture handlers are requested exactly when the phase is `Capturing`), set
the event's current target, snapshot the handlers to call from the target's
dispatch list, then invoke them. An object with no dispatch list behaves as
if it had an empty one (here every object totally has a list, empty by
default). -/
def dispatch_event_to_target (beh : Beh) (target : Nat)
    (s : DispatcherState) : TargetRunResult :=
  let name := s.event.event_type
  let use_capture := s.event.event_phase == EventPhase.Capturing
  let s1 : DispatcherState := { s with event := s.event.set_current_target target }
  let handlers := (s1.lists target).iter_event_handlers name use_capture
  runHandlers beh handlers s1

/-- Result of an ancestor-walking phase loop. -/
structure LoopResult where
  log : List (Nat × Nat)
  state : DispatcherState
  errored : Bool

/-- The capture/bubble ancestor loop of `dispatch_event`: before each
ancestor, stop if propagation is stopped; otherwise dispatch to it,
propagating errors. Logs (target, handler) pairs. -/
def dispatchLoop (beh : Beh) : List Nat → DispatcherState → LoopResult
  | [], s => ⟨[], s, false⟩
  | t :: rest, s =>
    if s.event.is_propagation_stopped then ⟨[], s, false⟩
    else
      let r := dispatch_event_to_target beh t s
      if r.errored then ⟨r.log.map (fun h => (t, h)), r.state, true⟩
      else
        let r2 := dispatchLoop beh rest r.state
        ⟨r.log.map (fun h => (t, h)) ++ r2.log, r2.state, r2.errored⟩

/-- The capture phase of `dispatch_event`: set the phase to `Capturing` and
the event's target, then walk the ancestor list outermost-first
(`ancestor_list.iter().rev()`; `ancestors` lists them innermost-first, as
built by the `parent_of` walk). -/
def dispatchCapture (beh : Beh) (target : Nat) (ancestors : List Nat)
    (s : DispatcherState) : LoopResult :=
  dispatchLoop beh ancestors.reverse
    { s with event := (s.event.set_phase EventPhase.Capturing).set_target target }

/-- Full result of `dispatch_event`, keeping the three phases' invocation
logs separate. `notCancelled` is the Rust function's `Ok` return value;
when `errored` is set the Rust function returned `Err` instead. -/
structure DispatchResult where
  captureLog : List (Nat × Nat)
  targetLog : List Nat
  bubbleLog : List (Nat × Nat)
  state : DispatcherState
  errored : Bool
  notCancelled : Bool

/-- The at-target phase of `dispatch_event`: set the phase to `AtTarget`,
then dispatch to the target itself unless propagation is already
stopped. -/
def dispatchAtTarget (beh : Beh) (target : Nat)
    (s : DispatcherState) : TargetRunResult :=
  let s1 : DispatcherState :=
    { s with event := s.event.set_phase EventPhase.AtTarget }
  if s1.event.is_propagation_stopped then ⟨[], s1, false⟩
  else dispatch_event_to_target beh target s1

/-- The bubbling phase of `dispatch_event`: set the phase to `Bubbling`,
then walk the ancestors innermost-first, but only if the event bubbles. -/
def dispatchBubble (beh : Beh) (ancestors : List Nat)
    (s : DispatcherState) : LoopResult :=
  let s2 : DispatcherState :=
    { s with event := s.event.set_phase EventPhase.Bubbling }
  if s2.event.is_bubbling then dispatchLoop beh ancestors s2
  else ⟨[], s2, false⟩

/-- `dispatch_event`: three-phase dispatch. The `target` parameter stands
for the dispatcher's resolved "target" property and `ancestors` for the
chain computed by walking `parent_of` from it (innermost parent first). -/
def dispatch_event (beh : Beh) (target : Nat) (ancestors : List Nat)
    (s : DispatcherState) : DispatchResult :=
  let rc := dispatchCapture beh target ancestors s
  if rc.errored then ⟨rc.log, [], [], rc.state, true, false⟩
  else
    let rt := dispatchAtTarget beh target rc.state
    if rt.errored then ⟨rc.log, rt.log, [], rt.state, true, false⟩
    else
      let rb := dispatchBubble beh ancestors rt.state
      if rb.errored then ⟨rc.log, rt.log, rb.log, rb.state, true, false⟩
      else ⟨rc.log, rt.log, rb.log, rb.state, false, !rb.state.event.is_cancelled⟩

/-! ## AVM2 names (src/core/src/avm2/names.rs) -/

/-- `Namespace`: the name of a namespace, tagged by kind. -/
inductive Namespace where
  | Namespace (s : String)
  | Package (s : String)
  | PackageInternal (s : String)
  | Protected (s : String)
  | Explicit (s : String)
  | StaticProtected (s : String)
  | Private (s : String)
  | Any
deriving DecidableEq, Repr

/-- `QName`: a namespace and name string. -/
structure QName where
  ns : Namespace
  name : String
deriving DecidableEq, Repr

/-- `QName::namespace`. -/
def QName.namespace_of (q : QName) : Namespace := q.ns

/-- `QName::local_name`. -/
def QName.local_name (q : QName) : String := q.name

/-- `Multiname`: a candidate namespace list, an optional local name
(`none` = satisfied by any name), and type parameters. -/
inductive Multiname where
  | mk (ns : List Namespace) (name : Option String) (params : List Multiname)

/-- The `ns` field of a `Multiname`. -/
def Multiname.ns : Multiname → List Namespace
  | Multiname.mk ns _ _ => ns

/-- The `name` field of a `Multiname`. -/
def Multiname.name : Multiname → Option String
  | Multiname.mk _ name _ => name

/-- `Multiname::contains_name`: determine if this multiname matches a given
QName. -/
def Multiname.contains_name (m : Multiname) (q : QName) : Bool :=
  let ns_match := m.ns.any (fun ns => ns == Namespace.Any || ns == q.namespace_of)
  let name_match := (m.name.map (fun n => n == q.local_name)).getD true
  ns_match && name_match

/-! ## AVM1 call protocol (src/core/src/avm1/function.rs, `Executable::exec`)

Two aspects are modelled: the effective-SWF-version computation and the
preload-register assignment performed on the fresh activation's register
file. -/

/-- The per-function preload/suppress flag bitset
(`swf::avm1::types::FunctionFlags`), as individual flags. -/
structure FunctionFlags where
  preload_this : Bool
  preload_arguments : Bool
  preload_super : Bool
  preload_root : Bool
  preload_parent : Bool
  preload_global : Bool
deriving DecidableEq, Repr

/-- The implicit bindings that can be preloaded into registers. -/
inductive Preloadable where
  | pthis
  | parguments
  | psuper
  | proot
  | pparent
  | pglobal
deriving DecidableEq, Repr

/-- The preload sequence of `Executable::exec`: starting from register 1,
each set flag stores its binding in the next register and advances the
counter. `hasSuper` is whether a `super` object was built (`this` is an
object and `SUPPRESS_SUPER` is unset); when it exists but `PRELOAD_SUPER`
is unset, `super` becomes a named local instead and no register is used.
`hasParent` is whether `base_clip.avm1_parent()` is `Some`; when the parent
is absent the `PRELOAD_PARENT` branch assigns no register at all, shifting
later preloads down. `PRELOAD_GLOBAL` is last and does not advance the
counter. -/
def preloadRegisters (flags : FunctionFlags) (hasSuper hasParent : Bool) :
    List (Nat × Preloadable) :=
  let acc : List (Nat × Preloadable) := []
  let preload_r : Nat := 1
  let (acc, preload_r) :=
    if flags.preload_this then (acc ++ [(preload_r, Preloadable.pthis)], preload_r + 1)
    else (acc, preload_r)
  let (acc, preload_r) :=
    if flags.preload_arguments then (acc ++ [(preload_r, Preloadable.parguments)], preload_r + 1)
    else (acc, preload_r)
  let (acc, preload_r) :=
    if hasSuper then
      if flags.preload_super then (acc ++ [(preload_r, Preloadable.psuper)], preload_r + 1)
      else (acc, preload_r)
    else (acc, preload_r)
  let (acc, preload_r) :=
    if flags.preload_root then (acc ++ [(preload_r, Preloadable.proot)], preload_r + 1)
    else (acc, preload_r)
  let (acc, preload_r) :=
    if flags.preload_parent then
      if hasParent then (acc ++ [(preload_r, Preloadable.pparent)], preload_r + 1)
      else (acc, preload_r)
    else (acc, preload_r)
  if flags.preload_global then acc ++ [(preload_r, Preloadable.pglobal)]
  else acc

/-- Modelled from the spec's reading of the same step, for comparison: the
order-sensitive list of preloads that actually take a register, in the
fixed order `this`, `arguments`, `super`, `root`, `parent`, `global`,
keeping only the ones whose flag is set (and whose binding exists). -/
def enabledPreloads (flags : FunctionFlags) (hasSuper hasParent : Bool) :
    List Preloadable :=
  (if flags.preload_this then [Preloadable.pthis] else []) ++
  (if flags.preload_arguments then [Preloadable.parguments] else []) ++
  (if hasSuper && flags.preload_super then [Preloadable.psuper] else []) ++
  (if flags.preload_root then [Preloadable.proot] else []) ++
  (if flags.preload_parent && hasParent then [Preloadable.pparent] else []) ++
  (if flags.preload_global then [Preloadable.pglobal] else [])

/-- The effective-SWF-version computation of `Executable::exec`:
`activationVersion` is `activation.swf_version()`, `baseClipRemoved` and
`baseClipVersion` describe `af.base_clip`, `fnVersion` is
`af.swf_version()`, `thisVersion` is
`this_obj.and_then(as_display_object).map(swf_version)` and
`playerVersion` is `context.player_version`. -/
def effectiveSwfVersion (activationVersion : Nat) (baseClipRemoved : Bool)
    (baseClipVersion fnVersion : Nat) (thisVersion : Option Nat)
    (playerVersion : Nat) : Nat :=
  if activationVersion > 5 then
    if !baseClipRemoved then baseClipVersion
    else fnVersion
  else
    thisVersion.getD playerVersion

/-! ## AVM1 depth-gated removal
(src/core/src/avm1/globals/display_object.rs) -/

/-- Depths used by ActionScript are offset by this amount from SWF depths. -/
def AVM_DEPTH_BIAS : Int := 16384

/-- The maximum depth the AVM allows clips to be removed from. -/
def AVM_MAX_REMOVE_DEPTH : Int := 2130706416

/-- Two's-complement wrap of an integer into the `i32` range. -/
def wrapI32 (n : Int) : Int := (n + 2147483648) % 4294967296 - 2147483648

/-- `i32::wrapping_sub`. -/
def wrappingSub32 (a b : Int) : Int := wrapI32 (a - b)

/-- The part of a display object's state read by `remove_display_object`:
its depth (an `i32`), its removed flag, and its AVM1 parent coerced to a
movie clip (`avm1_parent().and_then(as_movie_clip)`), by identity. -/
structure RemovalTarget where
  depth : Int
  removed : Bool
  movieClipParent : Option Nat
deriving DecidableEq, Repr

/-- `remove_display_object`: only objects whose (bias-offset) depth lies in
`[AVM_DEPTH_BIAS, AVM_MAX_REMOVE_DEPTH)` and that are not already removed
and have a movie-clip parent are removed. The result is the parent that
receives the `remove_child` call, or `none` when nothing happens. -/
def remove_display_object (this : RemovalTarget) : Option Nat :=
  let depth := wrappingSub32 this.depth 0
  if AVM_DEPTH_BIAS ≤ depth ∧ depth < AVM_MAX_REMOVE_DEPTH ∧ this.removed = false then
    this.movieClipParent
  else
    none

/-! ## JSON serialization (src/core/src/avm2/globals/json.rs,
`AvmSerializer::serialize_value`)

The serializer walks an AVM2 value graph. Objects live in a heap keyed by
identity; an object is either array-like (serialized by iterating its
items) or a plain object (serialized by enumerating its properties,
skipping `undefined`-valued ones). The `obj_stack` of in-progress objects
detects reference cycles. Specialized to the default `JSON.stringify`
configuration: no replacer, no `toJSON` overrides and no boxed primitives;
the `f64` `Number` variant is not modelled (its payload is never inspected
by the traversal). -/

/-- An AVM2 value, with objects by identity. -/
inductive AVal where
  | undefined
  | null
  | vbool (b : Bool)
  | vint (i : Int)
  | vuint (u : Nat)
  | vstr (s : String)
  | vobj (id : Nat)
deriving DecidableEq, Repr

/-- The serializable content of one heap object. -/
inductive ObjData where
  | arrData (items : List AVal)
  | objData (fields : List (String × AVal))
deriving DecidableEq, Repr

/-- The object heap: identity → content. Identities without an entry
behave as objects with no enumerable properties. -/
structure Heap where
  entries : List (Nat × ObjData)

/-- Look up an object's content. -/
def Heap.dataOf (h : Heap) (id : Nat) : Option ObjData :=
  (h.entries.find? (fun kv => kv.1 == id)).map (fun kv => kv.2)

/-- The identities present in the heap. -/
def Heap.ids (h : Heap) : List Nat := h.entries.map (fun kv => kv.1)

/-- A `serde_json::Value`. -/
inductive JValue where
  | null
  | jbool (b : Bool)
  | jint (i : Int)
  | juint (u : Nat)
  | jstr (s : String)
  | jarr (items : List JValue)
  | jobj (fields : List (String × JValue))

/-- The typed serialization error: `TypeError: Error #1129: Cyclic structure
cannot be converted to JSON string.` -/
inductive SerError where
  | cyclic
deriving DecidableEq, Repr

/-- Termination measure: how many heap objects are not yet on the
in-progress stack. -/
def freeCount (h : Heap) (stack : List Nat) : Nat :=
  (h.ids.filter (fun i => decide (i ∉ stack))).length

theorem length_filter_le_of_imp {α : Type} (p q : α → Bool)
    (hpq : ∀ i, q i = true → p i = true) :
    ∀ l : List α, (l.filter q).length ≤ (l.filter p).length := by
  intro l
  induction l with
  | nil => simp
  | cons x xs ih =>
    by_cases hq : q x = true
    · rw [List.filter_cons_of_pos hq, List.filter_cons_of_pos (hpq x hq)]
      simpa using ih
    · rw [List.filter_cons_of_neg (by simpa using hq)]
      by_cases hp : p x = true
      · rw [List.filter_cons_of_pos hp]
        exact Nat.le_succ_of_le ih
      · rw [List.filter_cons_of_neg (by simpa using hp)]
        exact ih

theorem freeCount_push_lt (h : Heap) (stack : List Nat) (id : Nat)
    (hid : id ∈ h.ids) (hmem : id ∉ stack) :
    freeCount h (stack ++ [id]) < freeCount h stack := by
  unfold freeCount
  have himp : ∀ i : Nat,
      decide (i ∉ stack ++ [id]) = true → decide (i ∉ stack) = true := by
    intro i hi
    simp only [decide_eq_true_eq, List.mem_append] at hi ⊢
    exact fun hc => hi (Or.inl hc)
  revert hid
  induction h.ids with
  | nil => intro hid; cases hid
  | cons x xs ih =>
    intro hid
    by_cases hx : x = id
    · subst hx
      rw [List.filter_cons_of_neg (by simp), List.filter_cons_of_pos (by simpa using hmem)]
      have hle := length_filter_le_of_imp _ _ himp xs
      simpa using Nat.lt_succ_of_le hle
    · have hid' : id ∈ xs := by
        rcases List.mem_cons.mp hid with h1 | h1
        · exact absurd h1.symm hx
        · exact h1
      by_cases hqx : x ∈ stack
      · rw [List.filter_cons_of_neg (by simp [hqx]),
          List.filter_cons_of_neg (by simp [hqx])]
        exact ih hid'
      · rw [List.filter_cons_of_pos (by simp [hqx, hx]),
          List.filter_cons_of_pos (by simp [hqx])]
        simpa using ih hid'

theorem mem_ids_of_dataOf (h : Heap) (id : Nat) (d : ObjData)
    (hfind : h.dataOf id = some d) : id ∈ h.ids := by
  unfold Heap.dataOf at hfind
  unfold Heap.ids
  cases hf : h.entries.find? (fun kv => kv.1 == id) with
  | none => rw [hf] at hfind; cases hfind
  | some kv =>
    have h1 := List.find?_some hf
    have h2 : kv ∈ h.entries := List.mem_of_find?_eq_some hf
    have h3 : kv.1 = id := by simpa using h1
    exact h3 ▸ List.mem_map_of_mem Prod.fst h2

mutual

/-- `AvmSerializer::serialize_value`: primitives map to their JSON forms
(`undefined` to `null`); an object already on the in-progress stack is a
cycle and raises the typed error; otherwise the object is pushed, its
content serialized (array items in order, or enumerable properties with
`undefined`-valued ones skipped), and popped. -/
def serializeValue (h : Heap) (stack : List Nat) : AVal → Except SerError JValue
  | AVal.undefined => Except.ok JValue.null
  | AVal.null => Except.ok JValue.null
  | AVal.vbool b => Except.ok (JValue.jbool b)
  | AVal.vint i => Except.ok (JValue.jint i)
  | AVal.vuint u => Except.ok (JValue.juint u)
  | AVal.vstr s => Except.ok (JValue.jstr s)
  | AVal.vobj id =>
    if hmem : id ∈ stack then Except.error SerError.cyclic
    else
      match hfind : h.dataOf id with
      | none => Except.ok (JValue.jobj [])
      | some (ObjData.arrData items) =>
        (serializeItems h (stack ++ [id]) items).map JValue.jarr
      | some (ObjData.objData fields) =>
        (serializeFields h (stack ++ [id]) fields).map JValue.jobj
termination_by v => (freeCount h stack, 0)
decreasing_by
  all_goals apply Prod.Lex.left
  all_goals exact freeCount_push_lt h stack id (mem_ids_of_dataOf h id _ hfind) hmem

/-- `AvmSerializer::serialize_iterable`: serialize array items in order;
the first error aborts. -/
def serializeItems (h : Heap) (stack : List Nat) :
    List AVal → Except SerError (List JValue)
  | [] => Except.ok []
  | v :: rest =>
    match serializeValue h stack v with
    | Except.error e => Except.error e
    | Except.ok j =>
      match serializeItems h stack rest with
      | Except.error e => Except.error e
      | Except.ok js => Except.ok (j :: js)
termination_by l => (freeCount h stack, 1 + l.length)
decreasing_by
  all_goals exact Prod.Lex.right _ (by simp only [List.length_cons]; omega)

/-- `AvmSerializer::serialize_object`: serialize enumerable properties in
order, skipping `undefined`-valued ones; the first error aborts. -/
def serializeFields (h : Heap) (stack : List Nat) :
    List (String × AVal) → Except SerError (List (String × JValue))
  | [] => Except.ok []
  | (k, v) :: rest =>
    if v = AVal.undefined then serializeFields h stack rest
    else
      match serializeValue h stack v with
      | Except.error e => Except.error e
      | Except.ok j =>
        match serializeFields h stack rest with
        | Except.error e => Except.error e
        | Except.ok js => Except.ok ((k, j) :: js)
termination_by l => (freeCount h stack, 1 + l.length)
decreasing_by
  all_goals exact Prod.Lex.right _ (by simp only [List.length_cons]; omega)

end

/-! ## Claim theorems -/

/-- Claim C2: for every Multiname `m` and QName `q`, `m.contains_name q`
returns true if and only if `m`'s namespace set contains the `Any`
namespace or a namespace equal to `q`'s namespace, and `m`'s local name is
absent or equals `q`'s local name. -/
theorem contains_name_iff (m : Multiname) (q : QName) :
    m.contains_name q = true ↔
      ((Namespace.Any ∈ m.ns ∨ q.namespace_of ∈ m.ns) ∧
        (m.name = none ∨ m.name = some q.local_name)) := by
  cases m with
  | mk ns name params =>
    cases name with
    | none =>
      simp [Multiname.contains_name, Multiname.ns, Multiname.name,
        List.any_eq_true]
      constructor
      · rintro ⟨x, hx, hor | hor⟩
        · exact Or.inl (hor ▸ hx)
        · exact Or.inr (hor ▸ hx)
      · rintro (hmem | hmem)
        · exact ⟨Namespace.Any, hmem, Or.inl rfl⟩
        · exact ⟨q.namespace_of, hmem, Or.inr rfl⟩
    | some n =>
      simp [Multiname.contains_name, Multiname.ns, Multiname.name,
        List.any_eq_true]
      intro _
      constructor
      · rintro ⟨x, hx, hor | hor⟩
        · exact Or.inl (hor ▸ hx)
        · exact Or.inr (hor ▸ hx)
      · rintro (hmem | hmem)
        · exact ⟨Namespace.Any, hmem, Or.inl rfl⟩
        · exact ⟨q.namespace_of, hmem, Or.inr rfl⟩

/-- Claim C6: preload registers are consumed sequentially from register 1
in the fixed order this, arguments, super, root, parent, global, only for
the flags that are set (equivalently: `preloadRegisters` is the enabled
preload list numbered from 1 with no gaps); when `PRELOAD_PARENT` is set
but the clip has no parent, no register is consumed for parent, so the
assignment equals the one with the parent flag cleared, and in the
flags-{this, parent, global} scenario `global` takes register 2, the number
parent would have occupied. -/
theorem preload_registers_sequential :
    (∀ b1 b2 b3 b4 b5 b6 hS hP : Bool,
      preloadRegisters ⟨b1, b2, b3, b4, b5, b6⟩ hS hP =
        List.enumFrom 1 (enabledPreloads ⟨b1, b2, b3, b4, b5, b6⟩ hS hP)) ∧
    (∀ b1 b2 b3 b4 b6 hS : Bool,
      preloadRegisters ⟨b1, b2, b3, b4, true, b6⟩ hS false =
        preloadRegisters ⟨b1, b2, b3, b4, false, b6⟩ hS false) ∧
    (preloadRegisters ⟨true, false, false, false, true, true⟩ false false =
      [(1, Preloadable.pthis), (2, Preloadable.pglobal)]) := by
  refine ⟨?_, ?_, ?_⟩
  · decide
  · decide
  · decide

/-- Claim C7: the effective SWF version of an interpreted AVM1 call prefers
the defining clip's version when the clip is live and the ambient version
exceeds 5; with the ambient version above 5 but the clip removed it falls
back to the function's own recorded version; with ambient version 5 or
below it falls back to `this`'s display-object version when there is one,
else to the player default. -/
theorem effective_version_cases (activationVersion : Nat)
    (baseClipRemoved : Bool) (baseClipVersion fnVersion : Nat)
    (thisVersion : Option Nat) (playerVersion : Nat) :
    (activationVersion > 5 → baseClipRemoved = false →
      effectiveSwfVersion activationVersion baseClipRemoved baseClipVersion
        fnVersion thisVersion playerVersion = baseClipVersion) ∧
    (activationVersion > 5 → baseClipRemoved = true →
      effectiveSwfVersion activationVersion baseClipRemoved baseClipVersion
        fnVersion thisVersion playerVersion = fnVersion) ∧
    (activationVersion ≤ 5 → ∀ tv, thisVersion = some tv →
      effectiveSwfVersion activationVersion baseClipRemoved baseClipVersion
        fnVersion thisVersion playerVersion = tv) ∧
    (activationVersion ≤ 5 → thisVersion = none →
      effectiveSwfVersion activationVersion baseClipRemoved baseClipVersion
        fnVersion thisVersion playerVersion = playerVersion) := by
  refine ⟨?_, ?_, ?_, ?_⟩
  · intro h1 h2; simp [effectiveSwfVersion, h1, h2]
  · intro h1 h2; simp [effectiveSwfVersion, h1, h2]
  · intro h1 tv h2
    have : ¬ activationVersion > 5 := by omega
    simp [effectiveSwfVersion, this, h2]
  · intro h1 h2
    have : ¬ activationVersion > 5 := by omega
    simp [effectiveSwfVersion, this, h2]

/-- Witness for `effective_version_cases` at concrete inputs. -/
theorem effective_version_cases_witness :
    effectiveSwfVersion 6 false 4 7 none 8 = 4 ∧
    effectiveSwfVersion 6 true 4 7 none 8 = 7 ∧
    effectiveSwfVersion 5 false 4 7 (some 3) 8 = 3 ∧
    effectiveSwfVersion 5 false 4 7 none 8 = 8 :=
  ⟨(effective_version_cases 6 false 4 7 none 8).1 (by decide) rfl,
    (effective_version_cases 6 true 4 7 none 8).2.1 (by decide) rfl,
    (effective_version_cases 5 false 4 7 (some 3) 8).2.2.1 (by decide) 3 rfl,
    (effective_version_cases 5 false 4 7 none 8).2.2.2 (by decide) rfl⟩

/-- `wrapI32` is the identity on the `i32` range. -/
theorem wrapI32_eq_self (n : Int) (h1 : -2147483648 ≤ n) (h2 : n < 2147483648) :
    wrapI32 n = n := by
  unfold wrapI32
  rw [Int.emod_eq_of_lt (by omega) (by omega)]
  omega

/-- Claim C8: an AVM1 removal request succeeds (a `remove_child` request is
emitted to the parent) exactly when the object's internal depth lies in
`[16384, 2130706416)`, the object is not already removed and it has a
movie-clip parent; at internal depth exactly 16384 the removal succeeds,
while at 16383 nothing is removed. -/
theorem remove_display_object_depth_gate :
    (∀ s : RemovalTarget, -2147483648 ≤ s.depth → s.depth < 2147483648 →
      ((remove_display_object s).isSome = true ↔
        (AVM_DEPTH_BIAS ≤ s.depth ∧ s.depth < AVM_MAX_REMOVE_DEPTH ∧
          s.removed = false ∧ s.movieClipParent.isSome = true))) ∧
    (∀ p : Nat, remove_display_object ⟨16384, false, some p⟩ = some p) ∧
    (∀ p : Nat, remove_display_object ⟨16383, false, some p⟩ = none) := by
  refine ⟨?_, ?_, ?_⟩
  · intro s hl hr
    unfold remove_display_object
    rw [show wrappingSub32 s.depth 0 = s.depth from by
      unfold wrappingSub32; rw [show s.depth - 0 = s.depth from by omega];
      exact wrapI32_eq_self s.depth hl hr]
    by_cases hc : AVM_DEPTH_BIAS ≤ s.depth ∧ s.depth < AVM_MAX_REMOVE_DEPTH ∧
        s.removed = false
    · simp only [if_pos hc]
      obtain ⟨h1, h2, h3⟩ := hc
      simp [h1, h2, h3]
    · simp only [if_neg hc]
      simp only [Option.isSome_none, Bool.false_eq_true, false_iff]
      intro ⟨h1, h2, h3, _⟩
      exact hc ⟨h1, h2, h3⟩
  · intro p; rfl
  · intro p; rfl

/-- Witness for `remove_display_object_depth_gate` at a concrete input. -/
theorem remove_display_object_depth_gate_witness :
    (remove_display_object ⟨16384, false, some 7⟩).isSome = true ↔
      (AVM_DEPTH_BIAS ≤ (16384 : Int) ∧ (16384 : Int) < AVM_MAX_REMOVE_DEPTH ∧
        false = false ∧ (some 7 : Option Nat).isSome = true) :=
  remove_display_object_depth_gate.1 ⟨16384, false, some 7⟩ (by decide) (by decide)

/-- Claim C10: once `stop_immediate_propagation` has set the propagation
state to `StopImmediate`, a later `stop_propagation` call does not
downgrade it: `is_propagation_stopped_immediately` stays true. -/
theorem stop_propagation_no_downgrade (e : Event)
    (h : e.is_propagation_stopped_immediately = true) :
    e.stop_propagation.is_propagation_stopped_immediately = true := by
  unfold Event.is_propagation_stopped_immediately at h ⊢
  unfold Event.stop_propagation
  simp only [beq_iff_eq] at h
  simp [h]

/-- Witness for `stop_propagation_no_downgrade` at a concrete event. -/
theorem stop_propagation_no_downgrade_witness :
    ((Event.new "click").stop_immediate_propagation).stop_propagation.is_propagation_stopped_immediately
      = true :=
  stop_propagation_no_downgrade ((Event.new "click").stop_immediate_propagation) rfl

/-! ### C5: duplicate-listener suppression -/

/-- How many times a (handler, capture flag) pair occurs across all
priority levels of one event type's map. -/
def pairCount (m : PrioMap) (x : EventHandler) : Nat :=
  (m.map (fun kv => kv.2.count x)).sum

/-- A registration-interface call on a dispatch list. -/
inductive ListOp where
  | add (etype : String) (priority : Int) (handler : Nat) (cap : Bool)
  | remove (etype : String) (handler : Nat) (cap : Bool)

/-- Apply one registration call. -/
def applyOp (d : DispatchList) : ListOp → DispatchList
  | ListOp.add e p h c => d.add_event_listener e p h c
  | ListOp.remove e h c => d.remove_event_listener e h c

/-- Apply a sequence of registration calls in order. -/
def applyOps (ops : List ListOp) (d : DispatchList) : DispatchList :=
  ops.foldl applyOp d

theorem pairCount_btreeInsert (m : PrioMap) (p : Int) (x y : EventHandler) :
    pairCount (btreeInsert m p x) y =
      pairCount m y + (if y = x then 1 else 0) := by
  induction m with
  | nil =>
    by_cases hxy : y = x <;>
      simp [btreeInsert, pairCount, List.count_singleton, hxy, List.count_cons,
        beq_iff_eq]
  | cons kv rest ih =>
    obtain ⟨k, v⟩ := kv
    unfold btreeInsert
    by_cases h1 : p < k
    · simp only [if_pos h1]
      by_cases hxy : y = x <;>
        simp [pairCount, hxy, List.count_cons, beq_iff_eq] <;> omega
    · simp only [if_neg h1]
      by_cases h2 : p = k
      · simp only [if_pos h2]
        by_cases hxy : y = x <;>
          simp [pairCount, hxy, List.count_append, List.count_cons, beq_iff_eq] <;>
            omega
      · simp only [if_neg h2]
        simp only [pairCount, List.map_cons, List.sum_cons] at ih ⊢
        omega

theorem pairCount_eq_zero_of_no_level (m : PrioMap) (x : EventHandler)
    (hno : m.any (fun kv => kv.2.contains x) = false) :
    pairCount m x = 0 := by
  induction m with
  | nil => rfl
  | cons kv rest ih =>
    simp only [List.any_cons, Bool.or_eq_false_iff] at hno
    have h1 : kv.2.count x = 0 :=
      List.count_eq_zero.mpr (by simpa using hno.1)
    have h2 := ih hno.2
    simp only [pairCount, List.map_cons, List.sum_cons] at h2 ⊢
    omega

theorem pairCount_remove_le (m : PrioMap) (x y : EventHandler) :
    pairCount (m.map (fun kv => (kv.1, kv.2.erase x))) y ≤ pairCount m y := by
  induction m with
  | nil => exact Nat.le_refl 0
  | cons kv rest ih =>
    simp only [pairCount, List.map_cons, List.sum_cons] at ih ⊢
    have h1 : (kv.2.erase x).count y ≤ kv.2.count y :=
      (kv.2.erase_sublist x).count_le y
    omega

/-- The at-most-once invariant for a dispatch list. -/
def AtMostOnce (d : DispatchList) : Prop :=
  ∀ e x, pairCount (d e) x ≤ 1

theorem add_event_listener_of_present (d : DispatchList) (e : String)
    (p : Int) (h : Nat) (c : Bool)
    (hany : (d e).any (fun kv => kv.2.contains (⟨h, c⟩ : EventHandler)) = true) :
    d.add_event_listener e p h c = d := by
  simp only [DispatchList.add_event_listener]
  rw [if_pos hany]

theorem add_event_listener_of_absent (d : DispatchList) (e : String)
    (p : Int) (h : Nat) (c : Bool)
    (hany : ¬ (d e).any (fun kv => kv.2.contains (⟨h, c⟩ : EventHandler)) = true) :
    d.add_event_listener e p h c =
      fun e' => if e' = e then btreeInsert (d e) p ⟨h, c⟩ else d e' := by
  simp only [DispatchList.add_event_listener]
  rw [if_neg hany]

theorem atMostOnce_add (d : DispatchList) (e : String) (p : Int) (h : Nat)
    (c : Bool) (hinv : AtMostOnce d) :
    AtMostOnce (d.add_event_listener e p h c) := by
  by_cases hany : (d e).any (fun kv => kv.2.contains (⟨h, c⟩ : EventHandler)) = true
  · rw [add_event_listener_of_present d e p h c hany]
    exact hinv
  · rw [add_event_listener_of_absent d e p h c hany]
    have hfalse : (d e).any
        (fun kv => kv.2.contains (⟨h, c⟩ : EventHandler)) = false := by
      rw [← Bool.not_eq_true]; exact hany
    intro e' x
    show pairCount (if e' = e then btreeInsert (d e) p ⟨h, c⟩ else d e') x ≤ 1
    by_cases he : e' = e
    · rw [if_pos he, pairCount_btreeInsert]
      by_cases hx : x = (⟨h, c⟩ : EventHandler)
      · rw [if_pos hx, hx, pairCount_eq_zero_of_no_level (d e) _ hfalse]
      · rw [if_neg hx]
        have := hinv e x
        omega
    · rw [if_neg he]
      exact hinv e' x

theorem remove_event_listener_apply (d : DispatchList) (e : String)
    (h : Nat) (c : Bool) :
    d.remove_event_listener e h c =
      fun e' => if e' = e then (d e).map (fun kv => (kv.1, kv.2.erase ⟨h, c⟩))
        else d e' := by
  simp [DispatchList.remove_event_listener]

theorem atMostOnce_remove (d : DispatchList) (e : String) (h : Nat) (c : Bool)
    (hinv : AtMostOnce d) :
    AtMostOnce (d.remove_event_listener e h c) := by
  rw [remove_event_listener_apply]
  intro e' x
  by_cases he : e' = e
  · simp only [he, if_pos rfl]
    exact Nat.le_trans (pairCount_remove_le (d e) _ x) (hinv e x)
  · simp only [if_neg he]
    exact hinv e' x

theorem atMostOnce_applyOps (ops : List ListOp) (d : DispatchList)
    (hinv : AtMostOnce d) : AtMostOnce (applyOps ops d) := by
  induction ops generalizing d with
  | nil => exact hinv
  | cons op rest ih =>
    cases op with
    | add e p h c => exact ih _ (atMostOnce_add d e p h c hinv)
    | remove e h c => exact ih _ (atMostOnce_remove d e h c hinv)

theorem mem_level_btreeInsert (m : PrioMap) (p : Int) (x : EventHandler) :
    (btreeInsert m p x).any (fun kv => kv.2.contains x) = true := by
  induction m with
  | nil => simp [btreeInsert]
  | cons kv rest ih =>
    obtain ⟨k, v⟩ := kv
    unfold btreeInsert
    by_cases h1 : p < k
    · simp [if_pos h1]
    · simp only [if_neg h1]
      by_cases h2 : p = k
      · simp [if_pos h2]
      · simp only [if_neg h2]
        rw [List.any_cons, ih, Bool.or_true]

/-- Claim C5: after any sequence of `add_event_listener` and
`remove_event_listener` calls starting from a fresh dispatch list, any
(handler identity, capture flag) pair appears at most once across all
priorities of an event type; and registering the same pair twice — even at
a different priority — leaves exactly the first registration (the second
call is a no-op). -/
theorem dispatch_list_no_duplicates :
    (∀ (ops : List ListOp) (e : String) (x : EventHandler),
      pairCount (applyOps ops DispatchList.new e) x ≤ 1) ∧
    (∀ (d : DispatchList) (e : String) (p p' : Int) (h : Nat) (c : Bool),
      (d.add_event_listener e p h c).add_event_listener e p' h c =
        d.add_event_listener e p h c) := by
  constructor
  · intro ops e x
    exact atMostOnce_applyOps ops DispatchList.new (fun _ _ => by
      simp [DispatchList.new, pairCount]) e x
  · intro d e p p' h c
    by_cases hany : (d e).any (fun kv => kv.2.contains (⟨h, c⟩ : EventHandler)) = true
    · rw [add_event_listener_of_present d e p h c hany,
        add_event_listener_of_present d e p' h c hany]
    · rw [add_event_listener_of_absent d e p h c hany]
      apply add_event_listener_of_present
      show (if e = e then btreeInsert (d e) p ⟨h, c⟩ else d e).any
          (fun kv => kv.2.contains (⟨h, c⟩ : EventHandler)) = true
      rw [if_pos rfl]
      exact mem_level_btreeInsert (d e) p ⟨h, c⟩

/-! ### C3: priority order, registration order, stop-immediate -/

/-- The `BTreeMap` representation invariant: keys strictly ascending. -/
def SortedKeys (m : PrioMap) : Prop :=
  List.Pairwise (fun a b => a.1 < b.1) m

/-- The vector stored at one priority key (empty if the key is absent). -/
def lookupPrio (m : PrioMap) (p : Int) : List EventHandler :=
  ((m.find? (fun kv => kv.1 == p)).map (fun kv => kv.2)).getD []

theorem btreeInsert_key (m : PrioMap) (p : Int) (x : EventHandler) :
    ∀ kv ∈ btreeInsert m p x, kv.1 = p ∨ kv ∈ m := by
  induction m with
  | nil =>
    intro kv hkv
    simp [btreeInsert] at hkv
    simp [hkv]
  | cons hd rest ih =>
    obtain ⟨k, v⟩ := hd
    intro kv hkv
    unfold btreeInsert at hkv
    by_cases h1 : p < k
    · rw [if_pos h1] at hkv
      rcases List.mem_cons.mp hkv with h | h
      · simp [h]
      · exact Or.inr h
    · rw [if_neg h1] at hkv
      by_cases h2 : p = k
      · rw [if_pos h2] at hkv
        rcases List.mem_cons.mp hkv with h | h
        · left; rw [h, h2]
        · exact Or.inr (List.mem_cons_of_mem _ h)
      · rw [if_neg h2] at hkv
        rcases List.mem_cons.mp hkv with h | h
        · exact Or.inr (h ▸ List.mem_cons_self _ _)
        · rcases ih kv h with h3 | h3
          · exact Or.inl h3
          · exact Or.inr (List.mem_cons_of_mem _ h3)

theorem sortedKeys_btreeInsert (m : PrioMap) (p : Int) (x : EventHandler)
    (hs : SortedKeys m) : SortedKeys (btreeInsert m p x) := by
  induction m with
  | nil => simp [btreeInsert, SortedKeys]
  | cons hd rest ih =>
    obtain ⟨k, v⟩ := hd
    rw [SortedKeys, List.pairwise_cons] at hs
    obtain ⟨hk, hrest⟩ := hs
    unfold btreeInsert
    by_cases h1 : p < k
    · rw [if_pos h1]
      refine List.Pairwise.cons ?_ (List.Pairwise.cons hk hrest)
      intro b hb
      rcases List.mem_cons.mp hb with h | h
      · rw [h]; exact h1
      · exact lt_trans h1 (hk b h)
    · rw [if_neg h1]
      by_cases h2 : p = k
      · rw [if_pos h2]
        exact List.Pairwise.cons hk hrest
      · rw [if_neg h2]
        refine List.Pairwise.cons ?_ (ih hrest)
        intro b hb
        rcases btreeInsert_key rest p x b hb with h3 | h3
        · rw [h3]; omega
        · exact hk b h3

theorem sortedKeys_add (d : DispatchList) (e : String) (p : Int) (h : Nat)
    (c : Bool) (hs : ∀ e', SortedKeys (d e')) :
    ∀ e', SortedKeys ((d.add_event_listener e p h c) e') := by
  by_cases hany : (d e).any (fun kv => kv.2.contains (⟨h, c⟩ : EventHandler)) = true
  · rw [add_event_listener_of_present d e p h c hany]
    exact hs
  · rw [add_event_listener_of_absent d e p h c hany]
    intro e'
    show SortedKeys (if e' = e then btreeInsert (d e) p ⟨h, c⟩ else d e')
    by_cases he : e' = e
    · rw [if_pos he]
      exact sortedKeys_btreeInsert (d e) p ⟨h, c⟩ (hs e)
    · rw [if_neg he]
      exact hs e'

theorem sortedKeys_remove (d : DispatchList) (e : String) (h : Nat) (c : Bool)
    (hs : ∀ e', SortedKeys (d e')) :
    ∀ e', SortedKeys ((d.remove_event_listener e h c) e') := by
  rw [remove_event_listener_apply]
  intro e'
  show SortedKeys (if e' = e then
    (d e).map (fun kv => (kv.1, kv.2.erase ⟨h, c⟩)) else d e')
  by_cases he : e' = e
  · rw [if_pos he]
    rw [SortedKeys, List.pairwise_map]
    exact (hs e).imp (fun hab => hab)
  · rw [if_neg he]
    exact hs e'

theorem sortedKeys_applyOps (ops : List ListOp) (d : DispatchList)
    (hs : ∀ e', SortedKeys (d e')) :
    ∀ e', SortedKeys ((applyOps ops d) e') := by
  induction ops generalizing d with
  | nil => exact hs
  | cons op rest ih =>
    cases op with
    | add e p h c => exact ih _ (sortedKeys_add d e p h c hs)
    | remove e h c => exact ih _ (sortedKeys_remove d e h c hs)

theorem pair_sublist_sorted (m : PrioMap) (p q : Int)
    (vp vq : List EventHandler) (hs : SortedKeys m) (hq : (q, vq) ∈ m)
    (hp : (p, vp) ∈ m) (hqp : q < p) : [(q, vq), (p, vp)] <+ m := by
  induction m with
  | nil => cases hq
  | cons hd rest ih =>
    rw [SortedKeys, List.pairwise_cons] at hs
    obtain ⟨hk, hrest⟩ := hs
    rcases List.mem_cons.mp hq with h1 | h1
    · have hp' : (p, vp) ∈ rest := by
        rcases List.mem_cons.mp hp with h2 | h2
        · rw [← h1] at h2
          have : p = q := congrArg Prod.fst h2
          omega
        · exact h2
      rw [← h1]
      exact List.Sublist.cons₂ _ (List.singleton_sublist.mpr hp')
    · rcases List.mem_cons.mp hp with h2 | h2
      · have := hk (q, vq) h1
        rw [← h2] at this
        simp at this
        omega
      · exact List.Sublist.cons _ (ih hrest h1 h2)

theorem sublist_flatMap {α β : Type} {l1 l2 : List α} (hsub : l1 <+ l2)
    (f : α → List β) : l1.flatMap f <+ l2.flatMap f := by
  induction hsub with
  | slnil => exact List.Sublist.refl _
  | cons a hsub ih => exact ih.trans (List.sublist_append_right _ _)
  | cons₂ a hsub ih => exact List.Sublist.append (List.Sublist.refl _) ih

theorem iter_priority_order (d : DispatchList) (e : String) (cap : Bool)
    (p q : Int) (vp vq : List EventHandler) (x y : EventHandler)
    (hs : SortedKeys (d e)) (hp : (p, vp) ∈ d e) (hq : (q, vq) ∈ d e)
    (hqp : q < p) (hx : x ∈ vp) (hy : y ∈ vq) (hxc : x.use_capture = cap)
    (hyc : y.use_capture = cap) :
    [x.handler, y.handler] <+ d.iter_event_handlers e cap := by
  have h1 : [(q, vq), (p, vp)] <+ d e :=
    pair_sublist_sorted (d e) p q vp vq hs hq hp hqp
  have h2 : [(p, vp), (q, vq)] <+ (d e).reverse := by
    simpa using h1.reverse
  have h3 : vp ++ vq <+ (d e).reverse.flatMap (fun kv => kv.2) := by
    have := sublist_flatMap h2 (fun kv => kv.2)
    simpa using this
  have h4 : [x, y] <+ vp ++ vq :=
    List.Sublist.append (List.singleton_sublist.mpr hx)
      (List.singleton_sublist.mpr hy)
  have h5 : [x, y] <+ (d e).reverse.flatMap (fun kv => kv.2) := h4.trans h3
  have h6 : [x, y] <+ ((d e).reverse.flatMap (fun kv => kv.2)).filter
      (fun eh => eh.use_capture == cap) := by
    have := h5.filter (fun eh => eh.use_capture == cap)
    rwa [show [x, y].filter (fun eh => eh.use_capture == cap) = [x, y] from by
      simp [List.filter_cons, hxc, hyc]] at this
  exact h6.map EventHandler.handler

theorem iter_same_level_order (d : DispatchList) (e : String) (cap : Bool)
    (p : Int) (vp : List EventHandler) (x y : EventHandler)
    (hp : (p, vp) ∈ d e) (hxy : [x, y] <+ vp) (hxc : x.use_capture = cap)
    (hyc : y.use_capture = cap) :
    [x.handler, y.handler] <+ d.iter_event_handlers e cap := by
  have h1 : [(p, vp)] <+ (d e).reverse :=
    List.singleton_sublist.mpr (by simpa using hp)
  have h2 : vp <+ (d e).reverse.flatMap (fun kv => kv.2) := by
    have := sublist_flatMap h1 (fun kv => kv.2)
    simpa using this
  have h5 : [x, y] <+ (d e).reverse.flatMap (fun kv => kv.2) := hxy.trans h2
  have h6 : [x, y] <+ ((d e).reverse.flatMap (fun kv => kv.2)).filter
      (fun eh => eh.use_capture == cap) := by
    have := h5.filter (fun eh => eh.use_capture == cap)
    rwa [show [x, y].filter (fun eh => eh.use_capture == cap) = [x, y] from by
      simp [List.filter_cons, hxc, hyc]] at this
  exact h6.map EventHandler.handler

theorem find?_eq_none_of_keys_gt (m : PrioMap) (p : Int)
    (hgt : ∀ b ∈ m, p < b.1) : m.find? (fun kv => kv.1 == p) = none := by
  induction m with
  | nil => rfl
  | cons hd rest ih =>
    rw [List.find?_cons_of_neg, ih]
    · intro b hb
      exact hgt b (List.mem_cons_of_mem _ hb)
    · have := hgt hd (List.mem_cons_self _ _)
      simp
      omega

theorem lookupPrio_btreeInsert (m : PrioMap) (p : Int) (x : EventHandler)
    (hs : SortedKeys m) :
    lookupPrio (btreeInsert m p x) p = lookupPrio m p ++ [x] := by
  induction m with
  | nil => simp [btreeInsert, lookupPrio]
  | cons hd rest ih =>
    obtain ⟨k, v⟩ := hd
    rw [SortedKeys, List.pairwise_cons] at hs
    obtain ⟨hk, hrest⟩ := hs
    unfold btreeInsert
    by_cases h1 : p < k
    · rw [if_pos h1]
      have hnone : ((k, v) :: rest).find? (fun kv => kv.1 == p) = none := by
        apply find?_eq_none_of_keys_gt
        intro b hb
        rcases List.mem_cons.mp hb with h | h
        · rw [h]; exact h1
        · exact lt_trans h1 (hk b h)
      simp [lookupPrio, hnone, List.find?_cons_of_pos]
    · rw [if_neg h1]
      by_cases h2 : p = k
      · rw [if_pos h2]
        simp [lookupPrio, List.find?_cons_of_pos, h2]
      · rw [if_neg h2]
        have hne : ¬ ((k, v) : Int × List EventHandler).1 == p := by
          simp; omega
        simp only [lookupPrio] at ih ⊢
        have e1 : ((k, v) :: btreeInsert rest p x).find? (fun kv => kv.1 == p)
            = (btreeInsert rest p x).find? (fun kv => kv.1 == p) :=
          List.find?_cons_of_neg _ hne
        have e2 : ((k, v) :: rest).find? (fun kv => kv.1 == p)
            = rest.find? (fun kv => kv.1 == p) :=
          List.find?_cons_of_neg _ hne
        rw [e1, e2]
        exact ih hrest

theorem runHandlers_log_initial (beh : Beh) (hs : List Nat)
    (s : DispatcherState) : (runHandlers beh hs s).log <+: hs := by
  induction hs generalizing s with
  | nil => exact List.prefix_refl _
  | cons h rest ih =>
    unfold runHandlers
    by_cases hg : s.event.is_propagation_stopped_immediately = true
    · rw [if_pos hg]
      exact List.nil_prefix
    · rw [if_neg hg]
      by_cases herr : (applyActions (beh h s.event) s).2 = true
      · rw [if_pos herr]
        exact ⟨rest, rfl⟩
      · rw [if_neg herr]
        obtain ⟨t, ht⟩ := ih (applyActions (beh h s.event) s).1
        refine ⟨t, ?_⟩
        show (h :: (runHandlers beh rest
          (applyActions (beh h s.event) s).1).log) ++ t = h :: rest
        rw [List.cons_append, ht]

theorem runHandlers_complete (beh : Beh) (hs : List Nat)
    (s : DispatcherState)
    (herr : (runHandlers beh hs s).errored = false)
    (hstop : (runHandlers beh hs s).state.event.is_propagation_stopped_immediately
      = false) : (runHandlers beh hs s).log = hs := by
  induction hs generalizing s with
  | nil => rfl
  | cons h rest ih =>
    unfold runHandlers at herr hstop ⊢
    by_cases hg : s.event.is_propagation_stopped_immediately = true
    · rw [if_pos hg] at hstop
      rw [hg] at hstop
      cases hstop
    · rw [if_neg hg] at herr hstop ⊢
      by_cases he2 : (applyActions (beh h s.event) s).2 = true
      · rw [if_pos he2] at herr
        cases herr
      · rw [if_neg he2] at herr hstop ⊢
        simp only []
        rw [ih _ herr hstop]

theorem runHandlers_stopped (beh : Beh) (hs : List Nat) (s : DispatcherState)
    (hstop : s.event.is_propagation_stopped_immediately = true) :
    (runHandlers beh hs s).log = [] := by
  cases hs with
  | nil => rfl
  | cons h rest =>
    unfold runHandlers
    rw [if_pos hstop]

/-- Claim C3: within one target's listener list for one event type and
phase: (1) dispatch lists built by any registration sequence keep their
priority keys strictly sorted; (2) a listener at a higher priority is
yielded before any listener at a lower priority; (3) two listeners at the
same priority are yielded in their in-level order, and (4) a new
registration goes to the end of its priority level, so ties run in
registration order; (5) the invocation loop runs a prefix of the
snapshot, runs it entirely when no error occurs and the event never
reaches stop-immediate, and runs nothing when stop-immediate was already
set — so once a listener sets stop-immediate-propagation the remaining
listeners at that target are not invoked. -/
theorem listener_priority_and_stop_immediate :
    (∀ (ops : List ListOp) (e : String),
      SortedKeys (applyOps ops DispatchList.new e)) ∧
    (∀ (d : DispatchList) (e : String) (cap : Bool) (p q : Int)
      (vp vq : List EventHandler) (x y : EventHandler),
      SortedKeys (d e) → (p, vp) ∈ d e → (q, vq) ∈ d e → q < p →
      x ∈ vp → y ∈ vq → x.use_capture = cap → y.use_capture = cap →
      [x.handler, y.handler] <+ d.iter_event_handlers e cap) ∧
    (∀ (d : DispatchList) (e : String) (cap : Bool) (p : Int)
      (vp : List EventHandler) (x y : EventHandler),
      (p, vp) ∈ d e → [x, y] <+ vp → x.use_capture = cap →
      y.use_capture = cap →
      [x.handler, y.handler] <+ d.iter_event_handlers e cap) ∧
    (∀ (d : DispatchList) (e : String) (p : Int) (h : Nat) (c : Bool),
      SortedKeys (d e) →
      ¬ (d e).any (fun kv => kv.2.contains (⟨h, c⟩ : EventHandler)) = true →
      lookupPrio ((d.add_event_listener e p h c) e) p =
        lookupPrio (d e) p ++ [⟨h, c⟩]) ∧
    (∀ (beh : Beh) (hs : List Nat) (s : DispatcherState),
      (runHandlers beh hs s).log <+: hs ∧
      ((runHandlers beh hs s).errored = false →
        (runHandlers beh hs s).state.event.is_propagation_stopped_immediately
          = false → (runHandlers beh hs s).log = hs) ∧
      (s.event.is_propagation_stopped_immediately = true →
        (runHandlers beh hs s).log = [])) := by
  refine ⟨?_, ?_, ?_, ?_, ?_⟩
  · intro ops e
    exact sortedKeys_applyOps ops DispatchList.new
      (fun _ => List.Pairwise.nil) e
  · intro d e cap p q vp vq x y hs hp hq hqp hx hy hxc hyc
    exact iter_priority_order d e cap p q vp vq x y hs hp hq hqp hx hy hxc hyc
  · intro d e cap p vp x y hp hxy hxc hyc
    exact iter_same_level_order d e cap p vp x y hp hxy hxc hyc
  · intro d e p h c hs hany
    rw [add_event_listener_of_absent d e p h c hany]
    show lookupPrio (if e = e then btreeInsert (d e) p ⟨h, c⟩ else d e) p = _
    rw [if_pos rfl]
    exact lookupPrio_btreeInsert (d e) p ⟨h, c⟩ hs
  · intro beh hs s
    exact ⟨runHandlers_log_initial beh hs s,
      fun h1 h2 => runHandlers_complete beh hs s h1 h2,
      fun h1 => runHandlers_stopped beh hs s h1⟩

/-- A concrete two-priority dispatch list: handler 2 at priority 0, handler
1 at priority 5, both bubble-registered, for every event type. -/
def c3WitnessList : DispatchList :=
  fun _ => [(0, [⟨2, false⟩]), (5, [⟨1, false⟩])]

/-- Witness for `listener_priority_and_stop_immediate` at concrete inputs:
the priority-5 handler is yielded before the priority-0 one, and a fresh
registration at priority 5 lands at the end of that level. -/
theorem listener_priority_and_stop_immediate_witness :
    [(1 : Nat), 2] <+ c3WitnessList.iter_event_handlers "evt" false ∧
    lookupPrio ((c3WitnessList.add_event_listener "evt" 5 3 false) "evt") 5 =
      lookupPrio (c3WitnessList "evt") 5 ++ [⟨3, false⟩] := by
  constructor
  · exact listener_priority_and_stop_immediate.2.1 c3WitnessList "evt" false 5 0
      [⟨1, false⟩] [⟨2, false⟩] ⟨1, false⟩ ⟨2, false⟩
      (by unfold SortedKeys c3WitnessList; decide) (by decide) (by decide)
      (by decide) (by decide) (by decide) rfl rfl
  · exact listener_priority_and_stop_immediate.2.2.2.1 c3WitnessList "evt" 5 3
      false (by unfold SortedKeys c3WitnessList; decide) (by decide)

/-! ### C4: snapshot isolation of the handler list -/

/-- Whether an action mutates dispatch lists (adds or removes a listener). -/
def ListenerAction.isMutation : ListenerAction → Bool
  | ListenerAction.addListener _ _ _ _ _ => true
  | ListenerAction.removeListener _ _ _ _ => true
  | _ => false

/-- The event-only effect of a single listener action: dispatch-list
mutations leave the event untouched. -/
def applyActionEvent (a : ListenerAction) (ev : Event) : Event :=
  match a with
  | ListenerAction.stopProp => ev.stop_propagation
  | ListenerAction.stopImmediate => ev.stop_immediate_propagation
  | ListenerAction.cancel => ev.cancel
  | ListenerAction.addListener _ _ _ _ _ => ev
  | ListenerAction.removeListener _ _ _ _ => ev
  | ListenerAction.fail => ev

/-- The event-only projection of `applyActions`. -/
def applyActionsEvent : List ListenerAction → Event → Event × Bool
  | [], ev => (ev, false)
  | ListenerAction.fail :: _, ev => (ev, true)
  | a :: rest, ev => applyActionsEvent rest (applyActionEvent a ev)

/-- Reference run over an already-snapshotted handler list, keeping only
the event: the handlers invoked by the loop depend only on the snapshot
and on the event evolution. -/
def pureRunLog (beh : Beh) : List Nat → Event → List Nat
  | [], _ => []
  | h :: rest, ev =>
    if ev.is_propagation_stopped_immediately then []
    else
      let step := applyActionsEvent (beh h ev) ev
      if step.2 then [h]
      else h :: pureRunLog beh rest step.1

/-- A behaviour with every dispatch-list mutation erased. -/
def stripMutations (beh : Beh) : Beh :=
  fun h ev => (beh h ev).filter (fun a => ! a.isMutation)

theorem applyActions_event_proj (as : List ListenerAction)
    (s : DispatcherState) :
    (applyActions as s).1.event = (applyActionsEvent as s.event).1 ∧
    (applyActions as s).2 = (applyActionsEvent as s.event).2 := by
  induction as generalizing s with
  | nil => exact ⟨rfl, rfl⟩
  | cons a rest ih =>
    cases a with
    | stopProp => exact ih _
    | stopImmediate => exact ih _
    | cancel => exact ih _
    | addListener o e p h c => exact ih _
    | removeListener o e h c => exact ih _
    | fail => exact ⟨rfl, rfl⟩

theorem runHandlers_log_pure (beh : Beh) (hs : List Nat)
    (s : DispatcherState) :
    (runHandlers beh hs s).log = pureRunLog beh hs s.event := by
  induction hs generalizing s with
  | nil => rfl
  | cons h rest ih =>
    unfold runHandlers pureRunLog
    by_cases hg : s.event.is_propagation_stopped_immediately = true
    · rw [if_pos hg, if_pos hg]
    · rw [if_neg hg, if_neg hg]
      obtain ⟨hev, herr⟩ := applyActions_event_proj (beh h s.event) s
      by_cases he2 : (applyActions (beh h s.event) s).2 = true
      · rw [if_pos he2, if_pos (herr ▸ he2)]
      · rw [if_neg he2, if_neg (herr ▸ he2)]
        show h :: (runHandlers beh rest (applyActions (beh h s.event) s).1).log
          = h :: pureRunLog beh rest (applyActionsEvent (beh h s.event) s.event).1
        rw [ih, hev]

theorem applyActionsEvent_strip (as : List ListenerAction) (ev : Event) :
    applyActionsEvent (as.filter (fun a => ! a.isMutation)) ev =
      applyActionsEvent as ev := by
  induction as generalizing ev with
  | nil => rfl
  | cons a rest ih =>
    cases a with
    | stopProp => simpa [ListenerAction.isMutation, applyActionsEvent,
        applyActionEvent] using ih _
    | stopImmediate => simpa [ListenerAction.isMutation, applyActionsEvent,
        applyActionEvent] using ih _
    | cancel => simpa [ListenerAction.isMutation, applyActionsEvent,
        applyActionEvent] using ih _
    | addListener o e p h c => simpa [ListenerAction.isMutation,
        applyActionsEvent, applyActionEvent] using ih ev
    | removeListener o e h c => simpa [ListenerAction.isMutation,
        applyActionsEvent, applyActionEvent] using ih ev
    | fail => simp [ListenerAction.isMutation, applyActionsEvent]

theorem pureRunLog_strip (beh : Beh) (hs : List Nat) (ev : Event) :
    pureRunLog (stripMutations beh) hs ev = pureRunLog beh hs ev := by
  induction hs generalizing ev with
  | nil => rfl
  | cons h rest ih =>
    unfold pureRunLog
    by_cases hg : ev.is_propagation_stopped_immediately = true
    · rw [if_pos hg, if_pos hg]
    · rw [if_neg hg, if_neg hg]
      show (if (applyActionsEvent (stripMutations beh h ev) ev).2 = true then [h]
          else h :: pureRunLog (stripMutations beh) rest
            (applyActionsEvent (stripMutations beh h ev) ev).1) = _
      rw [show stripMutations beh h ev =
          (beh h ev).filter (fun a => ! a.isMutation) from rfl,
        applyActionsEvent_strip (beh h ev) ev]
      by_cases he2 : (applyActionsEvent (beh h ev) ev).2 = true
      · rw [if_pos he2, if_pos he2]
      · rw [if_neg he2, if_neg he2, ih _]

/-- Claim C4: the handlers to invoke at a target are snapshotted before any
of them runs. (1) The invoked-handler log of `dispatch_event_to_target` is
a pure function of the target's dispatch list at entry and of the event —
mutations performed by listeners cannot change it; (2) erasing every
add/remove-listener action from every listener leaves the log unchanged;
(3) with or without listener errors, the log is a prefix of the snapshot
taken at entry, so an error aborts cleanly without disturbing the captured
bookkeeping. -/
theorem dispatch_snapshot_isolation :
    (∀ (beh : Beh) (target : Nat) (s : DispatcherState),
      (dispatch_event_to_target beh target s).log =
        pureRunLog beh
          ((s.lists target).iter_event_handlers s.event.event_type
            (s.event.event_phase == EventPhase.Capturing))
          (s.event.set_current_target target)) ∧
    (∀ (beh : Beh) (target : Nat) (s : DispatcherState),
      (dispatch_event_to_target beh target s).log =
        (dispatch_event_to_target (stripMutations beh) target s).log) ∧
    (∀ (beh : Beh) (target : Nat) (s : DispatcherState),
      (dispatch_event_to_target beh target s).log <+:
        (s.lists target).iter_event_handlers s.event.event_type
          (s.event.event_phase == EventPhase.Capturing)) := by
  refine ⟨?_, ?_, ?_⟩
  · intro beh target s
    exact runHandlers_log_pure beh _ _
  · intro beh target s
    show (runHandlers beh _ _).log = (runHandlers (stripMutations beh) _ _).log
    rw [runHandlers_log_pure, runHandlers_log_pure, pureRunLog_strip]
  · intro beh target s
    exact runHandlers_log_initial beh _ _

/-! ### C1: which listeners fire during the at-target phase -/

/-- A tame behaviour: no listener ever calls
`stopImmediatePropagation` or raises an error. -/
def Tame (beh : Beh) : Prop :=
  ∀ h e, ListenerAction.stopImmediate ∉ beh h e ∧
    ListenerAction.fail ∉ beh h e

theorem dispatch_event_to_target_eq (beh : Beh) (target : Nat)
    (s : DispatcherState) :
    dispatch_event_to_target beh target s =
      runHandlers beh
        ((s.lists target).iter_event_handlers s.event.event_type
          (s.event.event_phase == EventPhase.Capturing))
        { s with event := s.event.set_current_target target } := rfl

theorem applyActions_no_fail (as : List ListenerAction) (s : DispatcherState)
    (hf : ListenerAction.fail ∉ as) : (applyActions as s).2 = false := by
  induction as generalizing s with
  | nil => rfl
  | cons a rest ih =>
    have htail : ListenerAction.fail ∉ rest :=
      fun hm => hf (List.mem_cons_of_mem _ hm)
    cases a with
    | fail => exact absurd (List.mem_cons_self _ _) hf
    | stopProp => exact ih _ htail
    | stopImmediate => exact ih _ htail
    | cancel => exact ih _ htail
    | addListener o e p h c => exact ih _ htail
    | removeListener o e h c => exact ih _ htail

theorem cancel_propagation (e : Event) :
    (e.cancel).propagation = e.propagation := by
  unfold Event.cancel
  by_cases hc : e.cancelable = true
  · rw [if_pos hc]
  · rw [if_neg hc]

theorem stop_propagation_keeps_not_imm (e : Event)
    (h : e.is_propagation_stopped_immediately = false) :
    (e.stop_propagation).is_propagation_stopped_immediately = false := by
  unfold Event.is_propagation_stopped_immediately at h ⊢
  unfold Event.stop_propagation
  rw [if_pos]
  · simp
  · simpa [bne] using h

theorem applyActions_no_stopImmediate (as : List ListenerAction)
    (s : DispatcherState) (hsi : ListenerAction.stopImmediate ∉ as)
    (hprop : s.event.is_propagation_stopped_immediately = false) :
    (applyActions as s).1.event.is_propagation_stopped_immediately = false := by
  induction as generalizing s with
  | nil => exact hprop
  | cons a rest ih =>
    have htail : ListenerAction.stopImmediate ∉ rest :=
      fun hm => hsi (List.mem_cons_of_mem _ hm)
    cases a with
    | stopImmediate => exact absurd (List.mem_cons_self _ _) hsi
    | fail => exact hprop
    | stopProp =>
      exact ih _ htail (stop_propagation_keeps_not_imm s.event hprop)
    | cancel =>
      refine ih _ htail ?_
      show ((applyAction ListenerAction.cancel s).event.propagation ==
        PropagationMode.StopImmediate) = false
      show ((s.event.cancel).propagation == PropagationMode.StopImmediate) = false
      rw [cancel_propagation]
      exact hprop
    | addListener o e p h c => exact ih _ htail hprop
    | removeListener o e h c => exact ih _ htail hprop

theorem runHandlers_no_fail_no_error (beh : Beh) (hs : List Nat)
    (s : DispatcherState)
    (hfail : ∀ h e, ListenerAction.fail ∉ beh h e) :
    (runHandlers beh hs s).errored = false := by
  induction hs generalizing s with
  | nil => rfl
  | cons h rest ih =>
    unfold runHandlers
    by_cases hg : s.event.is_propagation_stopped_immediately = true
    · rw [if_pos hg]
    · rw [if_neg hg]
      have herr := applyActions_no_fail (beh h s.event) s (hfail h s.event)
      rw [if_neg (by simp [herr])]
      exact ih _

theorem runHandlers_tame_all (beh : Beh) (hs : List Nat)
    (s : DispatcherState) (htame : Tame beh)
    (hprop : s.event.is_propagation_stopped_immediately = false) :
    (runHandlers beh hs s).log = hs := by
  induction hs generalizing s with
  | nil => rfl
  | cons h rest ih =>
    unfold runHandlers
    rw [if_neg (by simp [hprop])]
    have herr := applyActions_no_fail (beh h s.event) s (htame h s.event).2
    rw [if_neg (by simp [herr])]
    have hprop' := applyActions_no_stopImmediate (beh h s.event) s
      (htame h s.event).1 hprop
    show h :: (runHandlers beh rest (applyActions (beh h s.event) s).1).log
      = h :: rest
    rw [ih _ hprop']

theorem dispatchLoop_no_error (beh : Beh) (ts : List Nat)
    (s : DispatcherState)
    (hfail : ∀ h e, ListenerAction.fail ∉ beh h e) :
    (dispatchLoop beh ts s).errored = false := by
  induction ts generalizing s with
  | nil => rfl
  | cons t rest ih =>
    unfold dispatchLoop
    by_cases hg : s.event.is_propagation_stopped = true
    · rw [if_pos hg]
    · rw [if_neg hg]
      have herr : (dispatch_event_to_target beh t s).errored = false := by
        rw [dispatch_event_to_target_eq]
        exact runHandlers_no_fail_no_error beh _ _ hfail
      rw [if_neg (by simp [herr])]
      exact ih _

theorem dispatchAtTarget_no_error (beh : Beh) (target : Nat)
    (s : DispatcherState)
    (hfail : ∀ h e, ListenerAction.fail ∉ beh h e) :
    (dispatchAtTarget beh target s).errored = false := by
  unfold dispatchAtTarget
  by_cases hg : ({ s with event := s.event.set_phase EventPhase.AtTarget }
      : DispatcherState).event.is_propagation_stopped = true
  · rw [if_pos hg]
  · rw [if_neg hg]
    rw [dispatch_event_to_target_eq]
    exact runHandlers_no_fail_no_error beh _ _ hfail

theorem dispatchBubble_no_error (beh : Beh) (ancestors : List Nat)
    (s : DispatcherState)
    (hfail : ∀ h e, ListenerAction.fail ∉ beh h e) :
    (dispatchBubble beh ancestors s).errored = false := by
  unfold dispatchBubble
  by_cases hg : ({ s with event := s.event.set_phase EventPhase.Bubbling }
      : DispatcherState).event.is_bubbling = true
  · rw [if_pos hg]
    exact dispatchLoop_no_error beh _ _ hfail
  · rw [if_neg hg]

theorem dispatch_event_targetLog_eq (beh : Beh) (target : Nat)
    (ancestors : List Nat) (s : DispatcherState)
    (hfail : ∀ h e, ListenerAction.fail ∉ beh h e) :
    (dispatch_event beh target ancestors s).targetLog =
      (dispatchAtTarget beh target
        (dispatchCapture beh target ancestors s).state).log := by
  have hc : (dispatchCapture beh target ancestors s).errored = false :=
    dispatchLoop_no_error beh _ _ hfail
  have ht := dispatchAtTarget_no_error beh target
    (dispatchCapture beh target ancestors s).state hfail
  have hb := dispatchBubble_no_error beh ancestors
    (dispatchAtTarget beh target
      (dispatchCapture beh target ancestors s).state).state hfail
  simp only [dispatch_event]
  rw [if_neg (by simp [hc]), if_neg (by simp [ht]), if_neg (by simp [hb])]

theorem not_imm_of_not_stopped (e : Event)
    (h : e.is_propagation_stopped = false) :
    e.is_propagation_stopped_immediately = false := by
  unfold Event.is_propagation_stopped at h
  unfold Event.is_propagation_stopped_immediately
  cases hp : e.propagation with
  | Allow => simp
  | Stop => rw [hp] at h; simp [bne] at h
  | StopImmediate => rw [hp] at h; simp [bne] at h

theorem dispatchAtTarget_log_stopped (beh : Beh) (target : Nat)
    (s : DispatcherState) (hstop : s.event.is_propagation_stopped = true) :
    (dispatchAtTarget beh target s).log = [] := by
  simp only [dispatchAtTarget]
  split
  · rfl
  · rename_i hcond
    exact absurd hstop hcond

theorem dispatchAtTarget_log_run (beh : Beh) (target : Nat)
    (s : DispatcherState) (htame : Tame beh)
    (hstop : s.event.is_propagation_stopped = false) :
    (dispatchAtTarget beh target s).log =
      (s.lists target).iter_event_handlers s.event.event_type false := by
  simp only [dispatchAtTarget]
  split
  · rename_i hcond
    have hcond' : s.event.is_propagation_stopped = true := hcond
    rw [hstop] at hcond'
    cases hcond'
  · rw [dispatch_event_to_target_eq]
    exact runHandlers_tame_all beh _ _ htame
      (not_imm_of_not_stopped s.event hstop)

/-- Claim C1 (amended): during the at-target phase, with no listener
raising an error or stopping propagation immediately, the handlers invoked
on the target are exactly those registered with capture flag `false` (the
bubble/at-target registrations) — capture-registered listeners do not fire
at this phase — and none fire when propagation was already stopped before
the at-target phase. -/
theorem at_target_invokes_bubble_registrations (beh : Beh)
    (lists : Nat → DispatchList) (ev : Event) (target : Nat)
    (ancestors : List Nat) (htame : Tame beh) :
    ((dispatchCapture beh target ancestors
        ⟨lists, ev⟩).state.event.is_propagation_stopped = true →
      (dispatch_event beh target ancestors ⟨lists, ev⟩).targetLog = []) ∧
    ((dispatchCapture beh target ancestors
        ⟨lists, ev⟩).state.event.is_propagation_stopped = false →
      (dispatch_event beh target ancestors ⟨lists, ev⟩).targetLog =
        DispatchList.iter_event_handlers
          ((dispatchCapture beh target ancestors ⟨lists, ev⟩).state.lists
            target)
          ((dispatchCapture beh target ancestors
            ⟨lists, ev⟩).state.event.event_type) false) := by
  have hfail : ∀ h e, ListenerAction.fail ∉ beh h e :=
    fun h e => (htame h e).2
  have hlog := dispatch_event_targetLog_eq beh target ancestors
    ⟨lists, ev⟩ hfail
  constructor
  · intro hstop
    rw [hlog]
    exact dispatchAtTarget_log_stopped beh target _ hstop
  · intro hstop
    rw [hlog]
    exact dispatchAtTarget_log_run beh target _ htame hstop

/-- Concrete behaviour for the C1 scenario: every listener does nothing. -/
def c1Beh : Beh := fun _ _ => []

/-- Concrete dispatch lists for the C1 counterexample: every object carries
one capture-registered listener, handler 1, at priority 0, for every event
type. -/
def c1Lists : Nat → DispatchList := fun _ _ => [(0, [⟨1, true⟩])]

/-- Counterexample to claim C1 as stated: handler 1 is registered on the
target (object 0) for the dispatched event's type with the capture flag
set, propagation is never stopped, yet the at-target phase — and the whole
dispatch — invokes no listener at all: capture-registered listeners do not
fire at the at-target phase. -/
theorem at_target_counterexample :
    DispatchList.iter_event_handlers (c1Lists 0) "evt" true = [1] ∧
    (dispatch_event c1Beh 0 [] ⟨c1Lists, Event.new "evt"⟩).state.event.is_propagation_stopped
      = false ∧
    (dispatch_event c1Beh 0 [] ⟨c1Lists, Event.new "evt"⟩).targetLog = [] ∧
    (dispatch_event c1Beh 0 [] ⟨c1Lists, Event.new "evt"⟩).captureLog = [] ∧
    (dispatch_event c1Beh 0 [] ⟨c1Lists, Event.new "evt"⟩).bubbleLog = [] := by
  refine ⟨rfl, rfl, rfl, rfl, rfl⟩

/-- Concrete dispatch lists for the C1 witness: one bubble-registered
listener, handler 2, on every object. -/
def c1WitnessLists : Nat → DispatchList := fun _ _ => [(0, [⟨2, false⟩])]

/-- Witness for `at_target_invokes_bubble_registrations` at concrete
inputs: with one bubble-registered listener and nothing stopping
propagation, the at-target phase invokes exactly that listener. -/
theorem at_target_invokes_bubble_registrations_witness :
    (dispatch_event c1Beh 0 [] ⟨c1WitnessLists, Event.new "evt"⟩).targetLog =
      DispatchList.iter_event_handlers
        ((dispatchCapture c1Beh 0 []
          ⟨c1WitnessLists, Event.new "evt"⟩).state.lists 0)
        ((dispatchCapture c1Beh 0 []
          ⟨c1WitnessLists, Event.new "evt"⟩).state.event.event_type) false :=
  (at_target_invokes_bubble_registrations c1Beh c1WitnessLists
    (Event.new "evt") 0 []
    (fun _ _ => ⟨List.not_mem_nil _, List.not_mem_nil _⟩)).2 rfl

/-! ### C9: cycle detection in JSON serialization -/

/-- The object identities directly referenced by the serializable content
of object `id`: array items and property values that are object
references. -/
def refs (h : Heap) (id : Nat) : List Nat :=
  match h.dataOf id with
  | none => []
  | some (ObjData.arrData items) =>
    items.filterMap (fun v => match v with
      | AVal.vobj i => some i
      | _ => none)
  | some (ObjData.objData fields) =>
    fields.filterMap (fun kv => match kv.2 with
      | AVal.vobj i => some i
      | _ => none)

/-- Direct reference edge between heap objects. -/
def Edge (h : Heap) (a b : Nat) : Prop := b ∈ refs h a

/-- `b` is reachable from `a` through reference edges. -/
def ReachesId (h : Heap) (a b : Nat) : Prop :=
  Relation.ReflTransGen (Edge h) a b

/-- The starting object of a value, if it is an object reference. -/
def startIds : AVal → List Nat
  | AVal.vobj id => [id]
  | _ => []

/-- Object `id` is reachable from value `v`. -/
def ValReach (h : Heap) (v : AVal) (id : Nat) : Prop :=
  ∃ s ∈ startIds v, ReachesId h s id

/-- The serializable values contained in an object's data: array items, or
property values. -/
def valsOf : ObjData → List AVal
  | ObjData.arrData items => items
  | ObjData.objData fields => fields.map (fun kv => kv.2)

theorem serializeItems_ok_iff (h : Heap) (stack : List Nat)
    (l : List AVal) :
    (∃ js, serializeItems h stack l = Except.ok js) ↔
      (∀ v ∈ l, ∃ j, serializeValue h stack v = Except.ok j) := by
  induction l with
  | nil => simp [serializeItems]
  | cons v rest ih =>
    constructor
    · rintro ⟨js, hjs⟩
      unfold serializeItems at hjs
      cases hv : serializeValue h stack v with
      | error e => rw [hv] at hjs; cases hjs
      | ok j =>
        rw [hv] at hjs
        cases hr : serializeItems h stack rest with
        | error e => rw [hr] at hjs; cases hjs
        | ok js2 =>
          intro w hw
          rcases List.mem_cons.mp hw with h1 | h1
          · exact ⟨j, h1 ▸ hv⟩
          · exact (ih.mp ⟨js2, hr⟩) w h1
    · intro hall
      obtain ⟨j, hj⟩ := hall v (List.mem_cons_self _ _)
      obtain ⟨js, hjs⟩ := ih.mpr (fun w hw => hall w (List.mem_cons_of_mem _ hw))
      exact ⟨j :: js, by unfold serializeItems; rw [hj, hjs]⟩

theorem serializeFields_ok_iff (h : Heap) (stack : List Nat)
    (l : List (String × AVal)) :
    (∃ js, serializeFields h stack l = Except.ok js) ↔
      (∀ kv ∈ l, ∃ j, serializeValue h stack kv.2 = Except.ok j) := by
  induction l with
  | nil => simp [serializeFields]
  | cons kv rest ih =>
    obtain ⟨k, v⟩ := kv
    by_cases hu : v = AVal.undefined
    · subst hu
      constructor
      · rintro ⟨js, hjs⟩
        unfold serializeFields at hjs
        rw [if_pos rfl] at hjs
        intro w hw
        rcases List.mem_cons.mp hw with h1 | h1
        · exact ⟨JValue.null, by rw [h1]; simp [serializeValue]⟩
        · exact (ih.mp ⟨js, hjs⟩) w h1
      · intro hall
        obtain ⟨js, hjs⟩ := ih.mpr
          (fun w hw => hall w (List.mem_cons_of_mem _ hw))
        exact ⟨js, by unfold serializeFields; rw [if_pos rfl]; exact hjs⟩
    · constructor
      · rintro ⟨js, hjs⟩
        unfold serializeFields at hjs
        rw [if_neg hu] at hjs
        cases hv : serializeValue h stack v with
        | error e => rw [hv] at hjs; cases hjs
        | ok j =>
          rw [hv] at hjs
          cases hr : serializeFields h stack rest with
          | error e => rw [hr] at hjs; cases hjs
          | ok js2 =>
            intro w hw
            rcases List.mem_cons.mp hw with h1 | h1
            · exact ⟨j, by rw [h1]; exact hv⟩
            · exact (ih.mp ⟨js2, hr⟩) w h1
      · intro hall
        obtain ⟨j, hj⟩ := hall (k, v) (List.mem_cons_self _ _)
        obtain ⟨js, hjs⟩ := ih.mpr
          (fun w hw => hall w (List.mem_cons_of_mem _ hw))
        refine ⟨(k, j) :: js, ?_⟩
        unfold serializeFields
        rw [if_neg hu]
        rw [show serializeValue h stack v = Except.ok j from hj, hjs]

/-- All objects reachable from object `r` avoid the stack and no reachable
object lies on a reference cycle. -/
def GoodId (h : Heap) (st : List Nat) (r : Nat) : Prop :=
  (∀ id', ReachesId h r id' → id' ∉ st) ∧
  ¬ ∃ id', ReachesId h r id' ∧ Relation.TransGen (Edge h) id' id'

/-- All objects reachable from value `v` avoid the stack and no reachable
object lies on a reference cycle. -/
def GoodVal (h : Heap) (st : List Nat) (v : AVal) : Prop :=
  (∀ id', ValReach h v id' → id' ∉ st) ∧
  ¬ ∃ id', ValReach h v id' ∧ Relation.TransGen (Edge h) id' id'

theorem valReach_vobj (h : Heap) (r id' : Nat) :
    ValReach h (AVal.vobj r) id' ↔ ReachesId h r id' := by
  simp [ValReach, startIds]

theorem goodVal_vobj (h : Heap) (st : List Nat) (r : Nat) :
    GoodVal h st (AVal.vobj r) ↔ GoodId h st r := by
  unfold GoodVal GoodId
  constructor
  · rintro ⟨h1, h2⟩
    exact ⟨fun id' hr => h1 id' ((valReach_vobj h r id').mpr hr),
      fun ⟨id', hr, hc⟩ => h2 ⟨id', (valReach_vobj h r id').mpr hr, hc⟩⟩
  · rintro ⟨h1, h2⟩
    exact ⟨fun id' hr => h1 id' ((valReach_vobj h r id').mp hr),
      fun ⟨id', hr, hc⟩ => h2 ⟨id', (valReach_vobj h r id').mp hr, hc⟩⟩

theorem goodVal_trivial (h : Heap) (st : List Nat) (v : AVal)
    (hv : startIds v = []) : GoodVal h st v := by
  have hno : ∀ id', ¬ ValReach h v id' := by
    rintro id' ⟨s, hs, _⟩
    rw [hv] at hs
    exact List.not_mem_nil s hs
  exact ⟨fun id' hre => absurd hre (hno id'),
    fun ⟨id', hre, _⟩ => hno id' hre⟩

theorem goodId_push_iff (h : Heap) (stack : List Nat) (id : Nat)
    (hmem : id ∉ stack) :
    GoodId h stack id ↔ ∀ r ∈ refs h id, GoodId h (stack ++ [id]) r := by
  unfold GoodId
  constructor
  · rintro ⟨hn, hc⟩ r hr
    constructor
    · intro id' hreach hcon
      rcases List.mem_append.mp hcon with hcon' | hcon'
      · exact hn id' (Relation.ReflTransGen.head hr hreach) hcon'
      · have hid : id' = id := by simpa using hcon'
        exact hc ⟨id, Relation.ReflTransGen.refl,
          Relation.TransGen.head' hr (hid ▸ hreach)⟩
    · rintro ⟨id', hreach, hcyc⟩
      exact hc ⟨id', Relation.ReflTransGen.head hr hreach, hcyc⟩
  · intro hall
    constructor
    · intro id' hreach
      rcases Relation.ReflTransGen.cases_head hreach with heq | ⟨c, hic, hcrest⟩
      · exact heq ▸ hmem
      · exact fun hcon => (hall c hic).1 id' hcrest
          (List.mem_append.mpr (Or.inl hcon))
    · rintro ⟨id', hreach, hcyc⟩
      rcases Relation.ReflTransGen.cases_head hreach with heq | ⟨c, hic, hcrest⟩
      · subst heq
        obtain ⟨c0, hic0, hc0i⟩ := Relation.TransGen.head'_iff.mp hcyc
        exact (hall c0 hic0).1 id hc0i
          (List.mem_append.mpr (Or.inr (List.mem_singleton.mpr rfl)))
      · exact (hall c hic).2 ⟨id', hcrest, hcyc⟩

theorem objOf_eq_some_iff (v : AVal) (r : Nat) :
    (match v with
      | AVal.vobj i => some i
      | _ => none) = some r ↔ v = AVal.vobj r := by
  cases v <;> simp

theorem mem_refs_iff (h : Heap) (id : Nat) (data : ObjData)
    (hdata : h.dataOf id = some data) (r : Nat) :
    r ∈ refs h id ↔ AVal.vobj r ∈ valsOf data := by
  cases data with
  | arrData items =>
    simp only [refs, hdata, valsOf, List.mem_filterMap]
    constructor
    · rintro ⟨v, hv, hv2⟩
      exact ((objOf_eq_some_iff v r).mp hv2) ▸ hv
    · intro hv
      exact ⟨AVal.vobj r, hv, rfl⟩
  | objData fields =>
    simp only [refs, hdata, valsOf, List.mem_filterMap, List.mem_map]
    constructor
    · rintro ⟨kv, hkv, hkv2⟩
      exact ⟨kv, hkv, (objOf_eq_some_iff kv.2 r).mp hkv2⟩
    · rintro ⟨kv, hkv, hkv2⟩
      exact ⟨kv, hkv, (objOf_eq_some_iff kv.2 r).mpr hkv2⟩

theorem goodVal_vals_iff (h : Heap) (st : List Nat) (id : Nat)
    (data : ObjData) (hdata : h.dataOf id = some data) :
    (∀ fv ∈ valsOf data, GoodVal h st fv) ↔
      (∀ r ∈ refs h id, GoodId h st r) := by
  constructor
  · intro hall r hr
    exact (goodVal_vobj h st r).mp
      (hall (AVal.vobj r) ((mem_refs_iff h id data hdata r).mp hr))
  · intro hall fv hfv
    cases fv with
    | vobj r =>
      exact (goodVal_vobj h st r).mpr
        (hall r ((mem_refs_iff h id data hdata r).mpr hfv))
    | undefined => exact goodVal_trivial h st _ rfl
    | null => exact goodVal_trivial h st _ rfl
    | vbool b => exact goodVal_trivial h st _ rfl
    | vint i => exact goodVal_trivial h st _ rfl
    | vuint u => exact goodVal_trivial h st _ rfl
    | vstr s => exact goodVal_trivial h st _ rfl

theorem serializeValue_ok_iff_good (h : Heap) :
    ∀ (n : Nat) (stack : List Nat) (v : AVal), freeCount h stack ≤ n →
      ((∃ j, serializeValue h stack v = Except.ok j) ↔
        GoodVal h stack v) := by
  intro n
  induction n using Nat.strong_induction_on with
  | _ n ih =>
    intro stack v hn
    cases v with
    | undefined =>
      exact iff_of_true ⟨JValue.null, by simp [serializeValue]⟩
        (goodVal_trivial h stack _ rfl)
    | null =>
      exact iff_of_true ⟨JValue.null, by simp [serializeValue]⟩
        (goodVal_trivial h stack _ rfl)
    | vbool b =>
      exact iff_of_true ⟨JValue.jbool b, by simp [serializeValue]⟩
        (goodVal_trivial h stack _ rfl)
    | vint i =>
      exact iff_of_true ⟨JValue.jint i, by simp [serializeValue]⟩
        (goodVal_trivial h stack _ rfl)
    | vuint u =>
      exact iff_of_true ⟨JValue.juint u, by simp [serializeValue]⟩
        (goodVal_trivial h stack _ rfl)
    | vstr s =>
      exact iff_of_true ⟨JValue.jstr s, by simp [serializeValue]⟩
        (goodVal_trivial h stack _ rfl)
    | vobj id =>
      by_cases hmem : id ∈ stack
      · have heq : serializeValue h stack (AVal.vobj id) =
            Except.error SerError.cyclic := by
          simp [serializeValue, hmem]
        refine iff_of_false ?_ ?_
        · rintro ⟨j, hj⟩
          rw [heq] at hj
          cases hj
        · rintro ⟨hn', _⟩
          exact hn' id ⟨id, by simp [startIds], Relation.ReflTransGen.refl⟩
            hmem
      · cases hfind : h.dataOf id with
        | none =>
          have heq : serializeValue h stack (AVal.vobj id) =
              Except.ok (JValue.jobj []) := by
            simp only [serializeValue, hmem, dite_false]
            split <;> rename_i hbad <;> rw [hfind] at hbad <;>
              first
                | rfl
                | (cases hbad <;> rfl)
          have hrefs : refs h id = [] := by simp [refs, hfind]
          have hreach : ∀ id', ReachesId h id id' → id' = id := by
            intro id' hr
            rcases Relation.ReflTransGen.cases_head hr with heq2 | ⟨c, hc, _⟩
            · exact heq2.symm
            · exact absurd hc (by simp [Edge, hrefs])
          refine iff_of_true ⟨_, heq⟩ ⟨?_, ?_⟩
          · rintro id' ⟨s, hs, hr⟩
            have hs' : s = id := by simpa [startIds] using hs
            subst hs'
            rw [hreach id' hr]
            exact hmem
          · rintro ⟨id', ⟨s, hs, hr⟩, hcyc⟩
            have hs' : s = id := by simpa [startIds] using hs
            subst hs'
            rw [hreach id' hr] at hcyc
            obtain ⟨c, hc, _⟩ := Relation.TransGen.head'_iff.mp hcyc
            exact absurd hc (by simp [Edge, hrefs])
        | some data =>
          have hid_ids : id ∈ h.ids := mem_ids_of_dataOf h id data hfind
          have hlt : freeCount h (stack ++ [id]) < freeCount h stack :=
            freeCount_push_lt h stack id hid_ids hmem
          have IH : ∀ fv,
              ((∃ j, serializeValue h (stack ++ [id]) fv = Except.ok j) ↔
                GoodVal h (stack ++ [id]) fv) :=
            fun fv => ih (freeCount h (stack ++ [id]))
              (lt_of_lt_of_le hlt hn) (stack ++ [id]) fv (Nat.le_refl _)
          have hstep :
              (∃ j, serializeValue h stack (AVal.vobj id) = Except.ok j) ↔
              (∀ fv ∈ valsOf data,
                ∃ j, serializeValue h (stack ++ [id]) fv = Except.ok j) := by
            cases data with
            | arrData items =>
              have heq : serializeValue h stack (AVal.vobj id) =
                  (serializeItems h (stack ++ [id]) items).map JValue.jarr := by
                simp only [serializeValue, hmem, dite_false]
                split <;> rename_i hbad <;> rw [hfind] at hbad <;>
                  first
                    | rfl
                    | (cases hbad <;> rfl)
              rw [heq, show valsOf (ObjData.arrData items) = items from rfl,
                ← serializeItems_ok_iff]
              cases serializeItems h (stack ++ [id]) items <;>
                simp [Except.map]
            | objData fields =>
              have heq : serializeValue h stack (AVal.vobj id) =
                  (serializeFields h (stack ++ [id]) fields).map
                    JValue.jobj := by
                simp only [serializeValue, hmem, dite_false]
                split <;> rename_i hbad <;> rw [hfind] at hbad <;>
                  first
                    | rfl
                    | (cases hbad <;> rfl)
              rw [heq]
              have h2 := serializeFields_ok_iff h (stack ++ [id]) fields
              constructor
              · rintro ⟨j, hj⟩ fv hfv
                obtain ⟨kv, hkv, hkv2⟩ := List.mem_map.mp hfv
                have : ∃ js, serializeFields h (stack ++ [id]) fields =
                    Except.ok js := by
                  cases hse : serializeFields h (stack ++ [id]) fields with
                  | error e => rw [hse] at hj; simp [Except.map] at hj
                  | ok js => exact ⟨js, rfl⟩
                exact hkv2 ▸ (h2.mp this kv hkv)
              · intro hall
                obtain ⟨js, hjs⟩ := h2.mpr
                  (fun kv hkv => hall kv.2 (List.mem_map_of_mem _ hkv))
                exact ⟨JValue.jobj js, by rw [hjs]; rfl⟩
          rw [hstep]
          constructor
          · intro hall
            rw [goodVal_vobj, goodId_push_iff h stack id hmem]
            rw [← goodVal_vals_iff h (stack ++ [id]) id data hfind]
            intro fv hfv
            exact (IH fv).mp (hall fv hfv)
          · intro hgood
            intro fv hfv
            rw [goodVal_vobj, goodId_push_iff h stack id hmem,
              ← goodVal_vals_iff h (stack ++ [id]) id data hfind] at hgood
            exact (IH fv).mpr (hgood fv hfv)

/-- Claim C9: serializing any value whose object graph contains a
reference cycle — a reachable object lying on a cycle of references —
fails with the typed cyclic-structure error, detected by the
object-identity stack (`serialize_value` errors when the object being
serialized is already on the in-progress stack); serializing any value
whose reachable graph is acyclic never raises this error and terminates
with a JSON value. -/
theorem json_cycle_detection :
    (∀ (h : Heap) (v : AVal),
      (∃ id, ValReach h v id ∧ Relation.TransGen (Edge h) id id) →
      serializeValue h [] v = Except.error SerError.cyclic) ∧
    (∀ (h : Heap) (v : AVal),
      (¬ ∃ id, ValReach h v id ∧ Relation.TransGen (Edge h) id id) →
      ∃ j, serializeValue h [] v = Except.ok j) := by
  have hmain : ∀ (h : Heap) (v : AVal),
      (∃ j, serializeValue h [] v = Except.ok j) ↔
        ¬ ∃ id, ValReach h v id ∧ Relation.TransGen (Edge h) id id := by
    intro h v
    rw [serializeValue_ok_iff_good h (freeCount h []) [] v (Nat.le_refl _)]
    unfold GoodVal
    constructor
    · rintro ⟨_, h2⟩
      exact h2
    · intro h2
      exact ⟨fun id' _ => List.not_mem_nil id', h2⟩
  constructor
  · intro h v hcyc
    cases hs : serializeValue h [] v with
    | ok j => exact absurd hcyc ((hmain h v).mp ⟨j, hs⟩)
    | error e => cases e; rfl
  · intro h v hacyc
    exact (hmain h v).mpr hacyc

/-- A one-object heap whose object references itself: a reference cycle. -/
def c9CycHeap : Heap :=
  ⟨[(0, ObjData.objData [("self", AVal.vobj 0)])]⟩

/-- A one-object heap with only a primitive property: acyclic. -/
def c9AcyclicHeap : Heap :=
  ⟨[(0, ObjData.objData [("x", AVal.null)])]⟩

/-- Witness for `json_cycle_detection` at concrete heaps: the
self-referencing object serializes to the cyclic error, the acyclic one
serializes successfully. -/
theorem json_cycle_detection_witness :
    serializeValue c9CycHeap [] (AVal.vobj 0) =
      Except.error SerError.cyclic ∧
    (∃ j, serializeValue c9AcyclicHeap [] (AVal.vobj 0) = Except.ok j) := by
  constructor
  · apply json_cycle_detection.1
    refine ⟨0, ⟨0, ?_, Relation.ReflTransGen.refl⟩,
      Relation.TransGen.single ?_⟩
    · show (0 : Nat) ∈ startIds (AVal.vobj 0)
      decide
    · show (0 : Nat) ∈ refs c9CycHeap 0
      decide
  · apply json_cycle_detection.2
    have hrefs : ∀ a : Nat, refs c9AcyclicHeap a = [] := by
      intro a
      by_cases h0 : a = 0
      · subst h0
        rfl
      · have hd : c9AcyclicHeap.dataOf a = none := by
          unfold Heap.dataOf c9AcyclicHeap
          rw [List.find?_cons_of_neg _ (by simpa using fun h => h0 h.symm)]
          rfl
        unfold refs
        rw [hd]
    rintro ⟨id, _, hcyc⟩
    obtain ⟨c, hc, _⟩ := Relation.TransGen.head'_iff.mp hcyc
    have hcm : c ∈ refs c9AcyclicHeap id := hc
    rw [hrefs id] at hcm
    exact List.not_mem_nil c hcm

end Rufflers
